import Mathlib

/-!
# Verification of the yaob object bridge

A shallow embedding of the yaob library (an object bridge that proxies live
object graphs across a message channel) together with proofs about its
data codec (`src/data.js`), object codec (`src/objects.js`), bridge state
(`src/state.js`) and event management (`src/magic.js` / `manage.js`).

JavaScript values are modelled by the mutual inductive `JsValue`; machine
details that the claims do not touch (floating point representation, object
reference identity) are modelled by rationals-with-NaN and by structural
identity of the magic records that the library attaches to bridgeable
objects.
-/

namespace Yaob

/-- The hidden property name marking bridgeable objects (`src/magic.js`). -/
def MAGIC_KEY : String := "_yaob"

/-- A JavaScript number: either NaN or a finite value (modelled as a
rational; the codec never performs arithmetic on numbers, it only copies
and compares them, and negates packed ids). -/
inductive JsNumber where
  | nan : JsNumber
  | fin : ℚ → JsNumber
deriving DecidableEq, Repr

/-- Negation of a JavaScript number (`-raw` in `unpackItem`). -/
def JsNumber.neg : JsNumber → JsNumber
  | .nan => .nan
  | .fin q => .fin (-q)

/-- The magic record attached to a bridgeable value, as far as the data
codec inspects it: `shareId` marks shared data, `remoteId` marks proxies,
`closed` marks dead objects (`src/magic.js`). -/
structure MagicRec where
  localId : Int
  closed : Bool
  remoteId : Option Int
  shareId : Option String
deriving DecidableEq, Repr

mutual
/-- The structural transformation map computed by `mapData`
(`src/data.js`).  Scalar tags follow the source's one-letter codes:
`blank` is `''`, `bad` is `'?'`, `date` is `'d'`, `err` is `'e'`,
`obj` is `'o'`, `shd` is `'s'`, `undef` is `'u'`, `u8` is `'u8'`;
`ab`, `mp` and `st` are the `'ab'`/`'M'`/`'S'` tags. -/
inductive DataMap where
  | blank : DataMap
  | bad : DataMap
  | date : DataMap
  | err : DataMap
  | obj : DataMap
  | shd : DataMap
  | undef : DataMap
  | u8 : DataMap
  | ab : DataMap
  | mp : DataMap
  | st : DataMap
  | arr : DMList → DataMap
  | fields : DMFields → DataMap

/-- A list of per-index maps for an array-shaped `DataMap`. -/
inductive DMList where
  | dnil : DMList
  | dcons : DataMap → DMList → DMList

/-- A list of per-name maps for an object-shaped `DataMap`. -/
inductive DMFields where
  | dfnil : DMFields
  | dfcons : String → DataMap → DMFields → DMFields
end

deriving instance DecidableEq for DataMap
deriving instance DecidableEq for DMList
deriving instance DecidableEq for DMFields

mutual
/-- A JavaScript value.  `varr` slots use `JsItems` so that sparse-array
holes are distinguishable from explicit `undefined` entries; `verror`
carries the non-enumerable `message`/`stack` strings plus the own
enumerable properties; `vmagic` is a bridgeable (or shared) object carrying
its magic record; `vsharedfun` is a shared function constant such as
`onMethod`; `verrenv` and `vpacked` are the wire-side `PackedError` /
`PackedData` envelope objects produced by the packer itself. -/
inductive JsValue where
  | vnull : JsValue
  | vbool : Bool → JsValue
  | vnum : JsNumber → JsValue
  | vstr : String → JsValue
  | vundef : JsValue
  | vdate : String → JsValue
  | verror : Option String → JsValue → JsValue → JsFields → JsValue
  | vu8 : List Nat → JsValue
  | vab : List Nat → JsValue
  | vmap : JsPairs → JsValue
  | vset : JsElems → JsValue
  | varr : JsItems → JsValue
  | vobj : JsFields → JsValue
  | vfun : JsValue
  | vmagic : MagicRec → JsValue
  | vsharedfun : String → JsValue
  | verrenv : Option String → Option DataMap → JsValue → Bool → JsValue
  | vpacked : Option DataMap → JsValue → Bool → JsValue

/-- The (name, value) fields of a JavaScript object, in enumeration
order. -/
inductive JsFields where
  | fnil : JsFields
  | fcons : String → JsValue → JsFields → JsFields

/-- The slots of a JavaScript array: `ihole` is a sparse hole. -/
inductive JsItems where
  | inil : JsItems
  | ihole : JsItems → JsItems
  | icons : JsValue → JsItems → JsItems

/-- The members of a JavaScript `Set`, in insertion order. -/
inductive JsElems where
  | enil : JsElems
  | econs : JsValue → JsElems → JsElems

/-- The entries of a JavaScript `Map`, in insertion order. -/
inductive JsPairs where
  | pnil : JsPairs
  | pcons : JsValue → JsValue → JsPairs → JsPairs
end

deriving instance DecidableEq for JsValue
deriving instance DecidableEq for JsFields
deriving instance DecidableEq for JsItems
deriving instance DecidableEq for JsElems
deriving instance DecidableEq for JsPairs

/-- A packed value for sending over the wire (`PackedData` in
`src/data.js`): `map` is present exactly when the source would include a
`map` key, and `thrw` models the optional `throw: true` flag. -/
structure PackedData where
  map : Option DataMap
  raw : JsValue
  thrw : Bool
deriving DecidableEq

/-- The `ObjectTable` interface of `src/data.js`, extended with the
process-wide `sharedData` table from `src/magic.js` that `unpackItem`
consults for the `'s'` tag.  `getPackedId` is the pure view of the
bridge's id assignment (the admission side effect of
`BridgeState.getPackedId` is modelled separately on the bridge state). -/
structure CodecTable where
  getPackedId : MagicRec → Option Int
  getObject : JsNumber → Option JsValue
  shared : String → Option JsValue

/-- JavaScript `typeof`, as far as the codec consults it. -/
def typeofString : JsValue → String
  | .vbool _ => "boolean"
  | .vnum _ => "number"
  | .vstr _ => "string"
  | .vundef => "undefined"
  | .vfun => "function"
  | .vsharedfun _ => "function"
  | _ => "object"

/-- A freshly thrown built-in `TypeError`. -/
def mkTypeError (msg : String) : JsValue :=
  .verror (some "TypeError") (.vstr msg) (.vstr "") .fnil

/-- A freshly thrown built-in `RangeError`. -/
def mkRangeError (msg : String) : JsValue :=
  .verror (some "RangeError") (.vstr msg) (.vstr "") .fnil

/-- The hexadecimal value of a digit character produced by
`Nat.digitChar`. -/
def hexVal : Char → Nat
  | '0' => 0 | '1' => 1 | '2' => 2 | '3' => 3 | '4' => 4
  | '5' => 5 | '6' => 6 | '7' => 7 | '8' => 8 | '9' => 9
  | 'a' => 10 | 'b' => 11 | 'c' => 12 | 'd' => 13 | 'e' => 14
  | 'f' => 15
  | _ => 0

/-- Models the external rfc4648 `base64.stringify` call in `data.js`.
The codec algebra relies only on the library's guarantee that
`parse (stringify bytes) = bytes`; the model realises an invertible
byte-to-text encoding by printing each byte as two hex digits. -/
def b64stringify (bytes : List Nat) : String :=
  String.mk (bytes.flatMap fun b => [Nat.digitChar (b / 16 % 16), Nat.digitChar (b % 16)])

/-- Helper for `b64parse`: decode two hex characters per byte. -/
def b64parseAux : List Char → List Nat
  | c1 :: c2 :: rest => (16 * hexVal c1 + hexVal c2) :: b64parseAux rest
  | _ => []

/-- Models the external rfc4648 `base64.parse` call in `data.js`. -/
def b64parse (s : String) : List Nat :=
  b64parseAux s.data

/-- Rendering of a JavaScript number inside an error message
(template-literal interpolation in the source). -/
def showJsNumber : JsNumber → String
  | .nan => "NaN"
  | .fin q => if q.den = 1 then toString q.num else toString q

/-- Auto-generated sizes of array slots are positive (used by the
termination argument of the packer, where a sparse hole is read as the
constant `undefined`). -/
theorem sizeOfJsItemsPos (l : JsItems) : 0 < sizeOf l := by
  cases l <;> simp_arith

/-- True when every entry of an array-shaped map is `''`. -/
def dmlAllBlank : DMList → Bool
  | .dnil => true
  | .dcons m rest => m = DataMap.blank ∧ dmlAllBlank rest

/-- First map recorded under a name in an object-shaped map
(`n in map` plus `map[n]` in the source). -/
def dmfLookup : DMFields → String → Option DataMap
  | .dfnil, _ => Option.none
  | .dfcons n m rest, key => if n = key then some m else dmfLookup rest key

mutual
/-- `mapData` from `src/data.js`: classify a value, returning the
transformation map.  The `'ab'`, `'M'` and `'S'` results for
`ArrayBuffer`, `Map` and `Set` are the cases the shipped tests and the
changelog document but whose `data.js` revision is not under `src/`;
they are modelled from the spec (§3 `DataMap` grammar).  The wire-side
envelope objects (`verrenv`/`vpacked`) are plain JSON data and so map to
`''`. -/
def mapData : JsValue → DataMap
  | .vbool _ => .blank
  | .vnum _ => .blank
  | .vstr _ => .blank
  | .vnull => .blank
  | .vdate _ => .date
  | .verror _ _ _ _ => .err
  | .vu8 _ => .u8
  | .vab _ => .ab
  | .vmap _ => .mp
  | .vset _ => .st
  | .vmagic m => if m.shareId.isSome then .shd else .obj
  | .varr l =>
      let ms := mapItems l
      if dmlAllBlank ms then .blank else .arr ms
  | .vobj l =>
      match mapFields l with
      | .dfnil => .blank
      | ms => .fields ms
  | .vundef => .undef
  | .vfun => .bad
  | .vsharedfun _ => .shd
  | .verrenv _ _ _ _ => .blank
  | .vpacked _ _ _ => .blank

/-- Per-index classification of an array; a sparse hole reads as
`undefined` and therefore maps to `'u'`. -/
def mapItems : JsItems → DMList
  | .inil => .dnil
  | .ihole rest => .dcons .undef (mapItems rest)
  | .icons v rest => .dcons (mapData v) (mapItems rest)

/-- Per-name classification of an object; only names whose map is not
`''` are recorded. -/
def mapFields : JsFields → DMFields
  | .fnil => .dfnil
  | .fcons n v rest =>
      let m := mapData v
      if m = DataMap.blank then mapFields rest else .dfcons n m (mapFields rest)
end

mutual
/-- `packItem` from `src/data.js`: copy a value into its wire form, as
directed by the map.  The fall-through values for data that does not fit
the map are unreachable when the map was produced by `mapData` on the
same value. -/
def packItem (t : CodecTable) : DataMap → JsValue → JsValue
  | .blank, data => data
  | .bad, data => .vstr (typeofString data)
  | .date, data =>
      match data with
      | .vdate iso => .vstr iso
      | _ => .vstr ""
  | .err, data =>
      -- `packError`: the error is spread into a plain object
      -- `{ message, stack, ...o }`, packed with `packData`, and the result
      -- is extended with the `base` constructor tag.  The composition with
      -- `packData` is unfolded here: `message` and `stack` pack as-is, so
      -- only the own enumerable properties contribute to the map.
      match data with
      | .verror base msg stk props =>
          let ms := mapFields props
          .verrenv base
            (match ms with
             | .dfnil => Option.none
             | ms => some (.fields ms))
            (.vobj (.fcons "message" msg (.fcons "stack" stk (packFields t ms props)))) false
      | _ => .vnull
  | .obj, data =>
      match data with
      | .vmagic m =>
          match t.getPackedId m with
          | Option.none => .vnull
          | some i => .vnum (.fin i)
      | _ => .vnull
  | .shd, data =>
      match data with
      | .vmagic m =>
          match m.shareId with
          | some s => .vstr s
          | Option.none => .vnull
      | .vsharedfun s => .vstr s
      | _ => .vnull
  | .undef, _ => .vnull
  | .u8, data =>
      match data with
      | .vu8 bytes => .vstr (b64stringify bytes)
      | _ => .vstr ""
  | .ab, data =>
      match data with
      | .vab bytes => .vstr (b64stringify bytes)
      | _ => .vstr ""
  | .mp, data =>
      match data with
      | .vmap entries => packMapEnv t entries
      | _ => .vnull
  | .st, data =>
      match data with
      | .vset elems => packSetEnv t elems
      | _ => .vnull
  | .arr ms, data =>
      match data with
      | .varr l => .varr (packItems t ms l)
      | _ => .vnull
  | .fields ms, data =>
      match data with
      | .vobj l => .vobj (packFields t ms l)
      | _ => .vnull
termination_by m d => (sizeOf d, sizeOf m)

/-- Pack every slot of an array against its per-index map; a hole reads
as `undefined`. -/
def packItems (t : CodecTable) : DMList → JsItems → JsItems
  | _, .inil => .inil
  | .dnil, _ => .inil
  | .dcons m rest, .ihole irest => .icons (packItem t m .vundef) (packItems t rest irest)
  | .dcons m rest, .icons v irest => .icons (packItem t m v) (packItems t rest irest)
termination_by ms l => (sizeOf l, sizeOf ms)
decreasing_by
  all_goals first
  | decreasing_tactic
  | (have h := sizeOfJsItemsPos irest
     decreasing_tactic)

/-- Pack every field of an object, transforming exactly the names the
map records (`n in map ? packItem(...) : data[n]`). -/
def packFields (t : CodecTable) : DMFields → JsFields → JsFields
  | _, .fnil => .fnil
  | ms, .fcons n v rest =>
      .fcons n
        (match dmfLookup ms n with
         | some m => packItem t m v
         | Option.none => v)
        (packFields t ms rest)
termination_by ms l => (sizeOf l, sizeOf ms)

/-- Modelled from the spec: the `'M'` tag packs the map's entries as a
recursively packed array of `[key, value]` pairs (the `data.js` revision
carrying `Map` support is not under `src/`; shape per §3 and
`test/data.test.js`).  The composition with `packData` on the entries
array is unfolded pair by pair. -/
def packMapEnv (t : CodecTable) (entries : JsPairs) : JsValue :=
  let ms := mapPairs entries
  .vpacked
    (if dmlAllBlank ms then Option.none else some (.arr ms))
    (.varr (packPairs t ms entries)) false
termination_by (sizeOf entries, 1)

/-- The per-pair maps of a map's entries array: each `[key, value]` pair
is itself an array, so it maps to `''` when both halves do. -/
def mapPairs : JsPairs → DMList
  | .pnil => .dnil
  | .pcons k v rest =>
      let mk := mapData k
      let mv := mapData v
      .dcons
        (if mk = DataMap.blank ∧ mv = DataMap.blank then DataMap.blank
         else .arr (.dcons mk (.dcons mv .dnil)))
        (mapPairs rest)
termination_by l => (sizeOf l, 0)

/-- Pack a map's entries against their per-pair maps. -/
def packPairs (t : CodecTable) : DMList → JsPairs → JsItems
  | _, .pnil => .inil
  | .dnil, _ => .inil
  | .dcons pm rest, .pcons k v prest =>
      .icons
        (match pm with
         | .arr (.dcons mk (.dcons mv .dnil)) =>
             .varr (.icons (packItem t mk k) (.icons (packItem t mv v) .inil))
         | _ => .varr (.icons k (.icons v .inil)))
        (packPairs t rest prest)
termination_by ms l => (sizeOf l, 0)

/-- Modelled from the spec: the `'S'` tag packs the set's members as a
recursively packed array (shape per §3 and `test/data.test.js`). -/
def packSetEnv (t : CodecTable) (elems : JsElems) : JsValue :=
  let ms := mapElems elems
  .vpacked
    (if dmlAllBlank ms then Option.none else some (.arr ms))
    (.varr (packElems t ms elems)) false
termination_by (sizeOf elems, 1)

/-- The per-member maps of a set's members array. -/
def mapElems : JsElems → DMList
  | .enil => .dnil
  | .econs v rest => .dcons (mapData v) (mapElems rest)
termination_by l => (sizeOf l, 0)

/-- Pack a set's members against their per-member maps. -/
def packElems (t : CodecTable) : DMList → JsElems → JsItems
  | _, .enil => .inil
  | .dnil, _ => .inil
  | .dcons m rest, .econs v erest => .icons (packItem t m v) (packElems t rest erest)
termination_by ms l => (sizeOf l, 0)
end

/-- The list of shared base-class names recognised by `unpackError`
(`bases` in `src/data.js`). -/
def errorBases : List String :=
  ["EvalError", "RangeError", "ReferenceError", "SyntaxError", "TypeError", "URIError"]

/-- `bases[value.base] || Error`: an unknown or absent base name falls
back to the plain `Error` constructor (modelled as `Option.none`). -/
def normalizeBase : Option String → Option String
  | some s => if s ∈ errorBases then some s else Option.none
  | Option.none => Option.none

/-- Copying the unpacked properties onto a fresh error object
(`for (const n in props) out[n] = props[n]` in `unpackError`): the
`message` and `stack` names land in the error's own slots, every other
name stays an own enumerable property.  JavaScript object keys are
unique, so the first occurrence of a name is the only one. -/
def assembleError : JsFields → JsValue × JsValue × JsFields
  | .fnil => (.vstr "", .vstr "", .fnil)
  | .fcons n v rest =>
      if n = "message" then
        let (_, s, ex) := assembleError rest
        (v, s, ex)
      else if n = "stack" then
        let (m, _, ex) := assembleError rest
        (m, v, ex)
      else
        let (m, s, ex) := assembleError rest
        (m, s, .fcons n v ex)

/-- Build the restored error value from the unpacked property object
(`new Base()` plus the property copy in `unpackError`). -/
def buildError (base : Option String) (props : JsValue) : JsValue :=
  match props with
  | .vobj l =>
      let (m, s, ex) := assembleError l
      .verror (normalizeBase base) m s ex
  | _ => .verror (normalizeBase base) (.vstr "") (.vstr "") .fnil

/-- Modelled from the spec: rebuild `Map` entries from the unpacked
entries array (`new Map(entries)`); each entry is destructured as a
`[key, value]` pair. -/
def itemsToPairs : JsItems → JsPairs
  | .inil => .pnil
  | .ihole rest => .pcons .vundef .vundef (itemsToPairs rest)
  | .icons v rest =>
      match v with
      | .varr (.icons k (.icons w _)) => .pcons k w (itemsToPairs rest)
      | _ => .pcons .vundef .vundef (itemsToPairs rest)

/-- Modelled from the spec: rebuild `Set` members from the unpacked
members array (`new Set(members)`). -/
def itemsToElems : JsItems → JsElems
  | .inil => .enil
  | .ihole rest => .econs .vundef (itemsToElems rest)
  | .icons v rest => .econs v (itemsToElems rest)

/-- `typeof x === 'object' && x !== null` on a value. -/
def isObjectNonNull : JsValue → Bool
  | .vnull => false
  | .vbool _ => false
  | .vnum _ => false
  | .vstr _ => false
  | .vundef => false
  | .vfun => false
  | .vsharedfun _ => false
  | _ => true

mutual
/-- `unpackItem` from `src/data.js`: invert the map, validating the raw
value's shape at every step; failures are thrown `TypeError` /
`RangeError` values carrying the path.  The `'ab'`, `'M'` and `'S'`
cases are modelled from the spec (their `data.js` revision is not under
`src/`). -/
def unpackItem (t : CodecTable) : DataMap → JsValue → String → Except JsValue JsValue
  | .blank, raw, _ => .ok raw
  | .bad, raw, path =>
      .error (mkTypeError ("Unsupported value of type " ++
        (match raw with | .vstr s => s | _ => "?") ++ " at " ++ path))
  | .date, raw, _ =>
      -- `new Date(raw)`; a date is represented by its ISO string.
      match raw with
      | .vstr s => .ok (.vdate s)
      | _ => .ok (.vdate "")
  | .err, raw, path =>
      match raw with
      | .verrenv base m r thrw => do
          let props ← unpackEnv t m r thrw path
          .ok (buildError base props)
      | _ => .error (mkTypeError ("Expecting an error description at " ++ path))
  | .obj, raw, path =>
      match raw with
      | .vnull => .error (mkTypeError ("Closed bridge object at " ++ path))
      | .vnum n =>
          match t.getObject n.neg with
          | Option.none =>
              .error (mkRangeError ("Invalid packedId " ++ showJsNumber n ++ " at " ++ path))
          | some o => .ok o
      | _ => .error (mkTypeError ("Expecting a packedId at " ++ path))
  | .shd, raw, path =>
      match raw with
      | .vstr s =>
          match t.shared s with
          | Option.none => .error (mkRangeError ("Invalid shareId " ++ s ++ " at " ++ path))
          | some v => .ok v
      | _ => .error (mkTypeError ("Expecting a shareId at " ++ path))
  | .undef, _, _ => .ok .vundef
  | .u8, raw, path =>
      match raw with
      | .vstr s => .ok (.vu8 (b64parse s))
      | _ => .error (mkTypeError ("Expecting a base64 string at " ++ path))
  | .ab, raw, path =>
      match raw with
      | .vstr s => .ok (.vab (b64parse s))
      | _ => .error (mkTypeError ("Expecting a base64 string at " ++ path))
  | .mp, raw, path =>
      match raw with
      | .vpacked m r thrw => do
          let entries ← unpackEnv t m r thrw path
          .ok (.vmap (match entries with
            | .varr items => itemsToPairs items
            | _ => .pnil))
      | _ => .error (mkTypeError ("Expecting packed map entries at " ++ path))
  | .st, raw, path =>
      match raw with
      | .vpacked m r thrw => do
          let elems ← unpackEnv t m r thrw path
          .ok (.vset (match elems with
            | .varr items => itemsToElems items
            | _ => .enil))
      | _ => .error (mkTypeError ("Expecting packed set members at " ++ path))
  | .arr ms, raw, path =>
      match raw with
      | .varr l => do
          let items ← unpackItems t ms l path 0
          .ok (.varr items)
      | raw =>
          if isObjectNonNull raw then .error (mkTypeError ("Expecting an array at " ++ path))
          else .error (mkTypeError ("Expecting an array or object at " ++ path))
  | .fields ms, raw, path =>
      match raw with
      | .vobj l => do
          let fs ← unpackFields t ms l path
          .ok (.vobj fs)
      | raw =>
          -- a `for (const n in raw)` over a non-plain object finds no own
          -- enumerable names; unreachable for maps produced by `mapData`.
          if isObjectNonNull raw then .ok (.vobj .fnil)
          else .error (mkTypeError ("Expecting an array or object at " ++ path))
termination_by m raw p => (sizeOf raw, sizeOf m)

/-- `unpackData` from `src/data.js`, with the envelope split into its
fields so that the packer's nested envelopes (`'e'`, `'M'`, `'S'`) can
reuse it: apply the map when present, then re-throw values marked
`throw: true`. -/
def unpackEnv (t : CodecTable) (m : Option DataMap) (raw : JsValue) (thrw : Bool)
    (path : String) : Except JsValue JsValue := do
  let out ← (match m with
    | Option.none => Except.ok raw
    | some mm => unpackItem t mm raw path)
  if thrw then .error out else .ok out
termination_by (sizeOf raw, sizeOf m)

/-- Unpack every slot of an array against its per-index map; the path is
extended with the index, and slots past the end of the raw array read as
`undefined`. -/
def unpackItems (t : CodecTable) : DMList → JsItems → String → Nat → Except JsValue JsItems
  | .dnil, _, _, _ => .ok .inil
  | .dcons m rest, .icons v r, path, i => do
      let x ← unpackItem t m v (path ++ "[" ++ toString i ++ "]")
      let xs ← unpackItems t rest r path (i + 1)
      .ok (.icons x xs)
  | .dcons m rest, .ihole r, path, i => do
      let x ← unpackItem t m .vundef (path ++ "[" ++ toString i ++ "]")
      let xs ← unpackItems t rest r path (i + 1)
      .ok (.icons x xs)
  | .dcons m rest, .inil, path, i => do
      let x ← unpackItem t m .vundef (path ++ "[" ++ toString i ++ "]")
      let xs ← unpackItems t rest .inil path (i + 1)
      .ok (.icons x xs)
termination_by ms l p i => (sizeOf l, sizeOf ms)
decreasing_by
  all_goals first
  | decreasing_tactic
  | (have h := sizeOfJsItemsPos r
     decreasing_tactic)

/-- Unpack every field of the raw object, transforming exactly the names
the map records; the path is extended with the name. -/
def unpackFields (t : CodecTable) : DMFields → JsFields → String → Except JsValue JsFields
  | _, .fnil, _ => .ok .fnil
  | ms, .fcons n v rest, path => do
      let x ← (match dmfLookup ms n with
        | some m => unpackItem t m v (path ++ "." ++ n)
        | Option.none => Except.ok v)
      let xs ← unpackFields t ms rest path
      .ok (.fcons n x xs)
termination_by ms l p => (sizeOf l, sizeOf ms)
end

/-- `unpackData` from `src/data.js` on a packed envelope. -/
def unpackData (t : CodecTable) (d : PackedData) (path : String) : Except JsValue JsValue :=
  unpackEnv t d.map d.raw d.thrw path

/-- `packData` from `src/data.js`: compute the map, pack, and omit the
`map` key when no transformation is needed.  The `try`/`catch` fallback
to `packThrow` is unreachable in the model: packing is total because the
codec table is a pure view. -/
def packData (t : CodecTable) (data : JsValue) : PackedData :=
  let m := mapData data
  let raw := packItem t m data
  if m = DataMap.blank then ⟨Option.none, raw, false⟩ else ⟨some m, raw, false⟩

/-- `packThrow` from `src/data.js`: like `packData` but always carries
the map and the `throw` flag. -/
def packThrow (t : CodecTable) (data : JsValue) : PackedData :=
  ⟨some (mapData data), packItem t (mapData data) data, true⟩

/-- The names of an object's fields, in order. -/
def fieldNames : JsFields → List String
  | .fnil => []
  | .fcons n _ rest => n :: fieldNames rest

mutual
/-- Replace every sparse-array hole by an explicit `undefined`, which is
what a packed array restores to (`out[i] = unpackItem(...)` always
assigns the slot). -/
def densify : JsValue → JsValue
  | .varr l => .varr (densifyItems l)
  | .vobj l => .vobj (densifyFields l)
  | .vmap ps => .vmap (densifyPairs ps)
  | .vset es => .vset (densifyElems es)
  | .verror b m s props => .verror b (densify m) (densify s) (densifyFields props)
  | v => v

def densifyItems : JsItems → JsItems
  | .inil => .inil
  | .ihole rest => .icons .vundef (densifyItems rest)
  | .icons v rest => .icons (densify v) (densifyItems rest)

def densifyFields : JsFields → JsFields
  | .fnil => .fnil
  | .fcons n v rest => .fcons n (densify v) (densifyFields rest)

def densifyPairs : JsPairs → JsPairs
  | .pnil => .pnil
  | .pcons k v rest => .pcons (densify k) (densify v) (densifyPairs rest)

def densifyElems : JsElems → JsElems
  | .enil => .enil
  | .econs v rest => .econs (densify v) (densifyElems rest)
end

mutual
/-- Deep equality of JavaScript values, as the spec's round-trip law
uses it: structural on every container, `NaN` equal to itself, and a
sparse-array hole equal to an explicit `undefined` entry. -/
def deepEq : JsValue → JsValue → Bool
  | .varr a, .varr b => deepEqItems a b
  | .vobj a, .vobj b => deepEqFields a b
  | .vmap a, .vmap b => deepEqPairs a b
  | .vset a, .vset b => deepEqElems a b
  | .verror b1 m1 s1 p1, .verror b2 m2 s2 p2 =>
      b1 = b2 ∧ deepEq m1 m2 ∧ deepEq s1 s2 ∧ deepEqFields p1 p2
  | a, b => a = b
termination_by a b => sizeOf a + sizeOf b

def deepEqItems : JsItems → JsItems → Bool
  | .inil, .inil => true
  | .ihole ra, .ihole rb => deepEqItems ra rb
  | .ihole ra, .icons w rb => deepEq .vundef w ∧ deepEqItems ra rb
  | .icons v ra, .ihole rb => deepEq v .vundef ∧ deepEqItems ra rb
  | .icons v ra, .icons w rb => deepEq v w ∧ deepEqItems ra rb
  | _, _ => false
termination_by a b => sizeOf a + sizeOf b

def deepEqFields : JsFields → JsFields → Bool
  | .fnil, .fnil => true
  | .fcons n v ra, .fcons n2 w rb => n = n2 ∧ deepEq v w ∧ deepEqFields ra rb
  | _, _ => false
termination_by a b => sizeOf a + sizeOf b

def deepEqPairs : JsPairs → JsPairs → Bool
  | .pnil, .pnil => true
  | .pcons k v ra, .pcons k2 w rb => deepEq k k2 ∧ deepEq v w ∧ deepEqPairs ra rb
  | _, _ => false
termination_by a b => sizeOf a + sizeOf b

def deepEqElems : JsElems → JsElems → Bool
  | .enil, .enil => true
  | .econs v ra, .econs w rb => deepEq v w ∧ deepEqElems ra rb
  | _, _ => false
termination_by a b => sizeOf a + sizeOf b
end

mutual
/-- The class of values the spec lists as supported by the codec's
round-trip law: primitives (including `NaN`), `undefined`, dates, errors
from the fixed constructor set (with string `message`/`stack` and own
enumerable properties), typed arrays, raw buffers, maps, sets, sparse
arrays, and plain objects.  Well-formedness facts every JavaScript value
has by construction are included: byte values fit a byte, and an
object's keys are unique (with `message`/`stack` living in the error's
own slots rather than among its extra properties). -/
def supported : JsValue → Bool
  | .vnull => true
  | .vbool _ => true
  | .vnum _ => true
  | .vstr _ => true
  | .vundef => true
  | .vdate _ => true
  | .vu8 bytes => bytes.all fun b => b < 256
  | .vab bytes => bytes.all fun b => b < 256
  | .verror base m s props =>
      (match base with
       | Option.none => true
       | some s => s ∈ errorBases) &&
      (match m with | .vstr _ => true | _ => false) &&
      (match s with | .vstr _ => true | _ => false) &&
      (fieldNames props).Nodup &&
      !("message" ∈ fieldNames props) &&
      !("stack" ∈ fieldNames props) &&
      supportedFields props
  | .vmap ps => supportedPairs ps
  | .vset es => supportedElems es
  | .varr l => supportedItems l
  | .vobj l => (fieldNames l).Nodup && supportedFields l
  | .vfun => false
  | .vmagic _ => false
  | .vsharedfun _ => false
  | .verrenv _ _ _ _ => false
  | .vpacked _ _ _ => false

def supportedFields : JsFields → Bool
  | .fnil => true
  | .fcons _ v rest => supported v && supportedFields rest

def supportedItems : JsItems → Bool
  | .inil => true
  | .ihole rest => supportedItems rest
  | .icons v rest => supported v && supportedItems rest

def supportedPairs : JsPairs → Bool
  | .pnil => true
  | .pcons k v rest => supported k && supported v && supportedPairs rest

def supportedElems : JsElems → Bool
  | .enil => true
  | .econs v rest => supported v && supportedElems rest
end

/-- `hexVal` inverts `Nat.digitChar` on hex digits. -/
theorem hexVal_digitChar (n : Nat) (h : n < 16) : hexVal (Nat.digitChar n) = n := by
  interval_cases n <;> rfl

/-- The modelled base64 codec restores the exact byte list, which is the
guarantee of the external rfc4648 library that `data.js` relies on. -/
theorem b64_roundtrip (bytes : List Nat) (h : (bytes.all fun b => b < 256) = true) :
    b64parse (b64stringify bytes) = bytes := by
  induction bytes with
  | nil => rfl
  | cons b rest ih =>
      simp only [List.all_cons, Bool.and_eq_true, decide_eq_true_eq] at h
      obtain ⟨hb, hrest⟩ := h
      have h1 : b / 16 % 16 = b / 16 := Nat.mod_eq_of_lt (by omega)
      have h2 : b / 16 < 16 := by omega
      have h3 : b % 16 < 16 := Nat.mod_lt _ (by omega)
      simp only [b64stringify, b64parse, List.flatMap_cons, List.cons_append, List.nil_append]
      show b64parseAux (Nat.digitChar (b / 16 % 16) :: Nat.digitChar (b % 16) ::
        (rest.flatMap fun b => [Nat.digitChar (b / 16 % 16), Nat.digitChar (b % 16)])) = b :: rest
      rw [b64parseAux, h1, hexVal_digitChar _ h2, hexVal_digitChar _ h3]
      have := ih hrest
      simp only [b64stringify, b64parse] at this
      rw [this]
      congr 1
      omega

/-- Unpacking an envelope with no map and no throw flag is the identity. -/
theorem unpackEnv_none (t : CodecTable) (raw : JsValue) (path : String) :
    unpackEnv t Option.none raw false path = .ok raw := by
  simp [unpackEnv, Bind.bind, Except.bind]

/-- Unpacking an envelope with a map and no throw flag is `unpackItem`. -/
theorem unpackEnv_some (t : CodecTable) (m : DataMap) (raw : JsValue) (path : String) :
    unpackEnv t (some m) raw false path = unpackItem t m raw path := by
  rw [unpackEnv]
  cases h : unpackItem t m raw path <;> simp [Bind.bind, Except.bind, h]

/-- An empty object map transforms nothing. -/
theorem packFields_dfnil (t : CodecTable) (l : JsFields) :
    packFields t .dfnil l = l := by
  match l with
  | .fnil => simp [packFields]
  | .fcons n v rest => simp [packFields, dmfLookup, packFields_dfnil t rest]

/-- Every name recorded by `mapFields` is a name of the object. -/
theorem dmfLookup_mapFields_not_mem (l : JsFields) (n : String)
    (h : ¬ n ∈ fieldNames l) : dmfLookup (mapFields l) n = Option.none := by
  match l with
  | .fnil => simp [mapFields, dmfLookup]
  | .fcons n2 v rest =>
      simp only [fieldNames, List.mem_cons, not_or] at h
      obtain ⟨h1, h2⟩ := h
      rw [mapFields]
      split
      · exact dmfLookup_mapFields_not_mem rest n h2
      · have hne : ¬ n2 = n := fun hh => h1 (Eq.symm hh)
        rw [dmfLookup, if_neg hne]
        exact dmfLookup_mapFields_not_mem rest n h2

/-- The lookups that `packFields`/`unpackFields` perform on a map agree,
field by field, with the classification of the field's own value. -/
def lookupCompat (ms : DMFields) : JsFields → Prop
  | .fnil => True
  | .fcons n v rest =>
      dmfLookup ms n =
        (if mapData v = DataMap.blank then Option.none else some (mapData v)) ∧
      lookupCompat ms rest

/-- `lookupCompat` only inspects the map at the object's own names. -/
theorem lookupCompat_congr (ms ms2 : DMFields) (l : JsFields)
    (h : ∀ key, key ∈ fieldNames l → dmfLookup ms2 key = dmfLookup ms key)
    (hc : lookupCompat ms l) : lookupCompat ms2 l := by
  match l with
  | .fnil => trivial
  | .fcons n v rest =>
      obtain ⟨h1, h2⟩ := hc
      refine ⟨?_, lookupCompat_congr ms ms2 rest
        (fun key hk => h key (by simp [fieldNames, hk])) h2⟩
      rw [h n (by simp [fieldNames])]
      exact h1

/-- An object with unique names is compatible with its own `mapFields`
result. -/
theorem lookupCompat_self (l : JsFields) (h : (fieldNames l).Nodup) :
    lookupCompat (mapFields l) l := by
  match l with
  | .fnil => trivial
  | .fcons n v rest =>
      simp only [fieldNames, List.nodup_cons] at h
      obtain ⟨hn, hrest⟩ := h
      rw [mapFields]
      split
      · next hblank =>
          refine ⟨?_, lookupCompat_self rest hrest⟩
          rw [if_pos hblank]
          exact dmfLookup_mapFields_not_mem rest n hn
      · next hblank =>
          refine ⟨?_, ?_⟩
          · rw [dmfLookup, if_pos rfl, if_neg hblank]
          · refine lookupCompat_congr (mapFields rest) _ rest ?_ (lookupCompat_self rest hrest)
            intro key hk
            have hne : ¬ n = key := fun hh => hn (hh ▸ hk)
            rw [dmfLookup, if_neg hne]

/-- Copying properties that do not include `message` or `stack` leaves
the error's own slots at their defaults and every property an extra. -/
theorem assembleError_no_slots (l : JsFields)
    (hm : ¬ "message" ∈ fieldNames l) (hs : ¬ "stack" ∈ fieldNames l) :
    assembleError l = (.vstr "", .vstr "", l) := by
  match l with
  | .fnil => rfl
  | .fcons n v rest =>
      simp only [fieldNames, List.mem_cons, not_or] at hm hs
      rw [assembleError, if_neg (fun hh => hm.1 hh.symm), if_neg (fun hh => hs.1 hh.symm),
        assembleError_no_slots rest hm.2 hs.2]

/-- Densifying values does not change an object's names. -/
theorem fieldNames_densifyFields (l : JsFields) :
    fieldNames (densifyFields l) = fieldNames l := by
  match l with
  | .fnil => rfl
  | .fcons n v rest => simp [densifyFields, fieldNames, fieldNames_densifyFields rest]

/-- A valid base tag survives the `bases[...] || Error` lookup. -/
theorem normalizeBase_valid (base : Option String)
    (h : (match base with
          | Option.none => true
          | some s => decide (s ∈ errorBases)) = true) :
    normalizeBase base = base := by
  cases base with
  | none => rfl
  | some s =>
      simp only [decide_eq_true_eq] at h
      simp [normalizeBase, h]

/-- A map's entries, laid out as the array of `[key, value]` pair arrays
that the `'M'` tag packs. -/
def pairItems : JsPairs → JsItems
  | .pnil => .inil
  | .pcons k v rest => .icons (.varr (.icons k (.icons v .inil))) (pairItems rest)

/-- A set's members, laid out as the members array that the `'S'` tag
packs. -/
def elemItems : JsElems → JsItems
  | .enil => .inil
  | .econs v rest => .icons v (elemItems rest)

/-- Destructuring the packed pair layout restores the entries. -/
theorem itemsToPairs_pairItems (ps : JsPairs) :
    itemsToPairs (pairItems ps) = ps := by
  match ps with
  | .pnil => rfl
  | .pcons k v rest => simp [pairItems, itemsToPairs, itemsToPairs_pairItems rest]

/-- Iterating the packed member layout restores the members. -/
theorem itemsToElems_elemItems (es : JsElems) :
    itemsToElems (elemItems es) = es := by
  match es with
  | .enil => rfl
  | .econs v rest => simp [elemItems, itemsToElems, itemsToElems_elemItems rest]

mutual
/-- Values the classifier leaves untouched contain no holes and densify
to themselves. -/
theorem blankDensify (v : JsValue) (h : mapData v = .blank) : densify v = v := by
  match v with
  | .vnull => rfl
  | .vbool _ => rfl
  | .vnum _ => rfl
  | .vstr _ => rfl
  | .vdate _ => simp [mapData] at h
  | .vundef => simp [mapData] at h
  | .vfun => simp [mapData] at h
  | .vsharedfun _ => simp [mapData] at h
  | .vu8 _ => simp [mapData] at h
  | .vab _ => simp [mapData] at h
  | .vmap _ => simp [mapData] at h
  | .vset _ => simp [mapData] at h
  | .verror _ _ _ _ => simp [mapData] at h
  | .vmagic m =>
      rw [mapData] at h
      split at h <;> simp at h
  | .varr l =>
      rw [mapData] at h
      split at h
      · next hcond => rw [densify, blankDensifyItems l hcond]
      · simp at h
  | .vobj l =>
      rw [mapData] at h
      split at h
      · next hm => rw [densify, blankDensifyFields l hm]
      · simp at h
  | .verrenv _ _ _ _ => rfl
  | .vpacked _ _ _ => rfl

/-- Arrays whose per-index maps are all `''` have no holes and densify
to themselves. -/
theorem blankDensifyItems (l : JsItems) (h : dmlAllBlank (mapItems l) = true) :
    densifyItems l = l := by
  match l with
  | .inil => rfl
  | .ihole rest => simp [mapItems, dmlAllBlank] at h
  | .icons v rest =>
      simp only [mapItems, dmlAllBlank, Bool.and_eq_true, decide_eq_true_eq] at h
      rw [densifyItems, blankDensify v h.1, blankDensifyItems rest h.2]

/-- Objects whose field map is empty densify to themselves. -/
theorem blankDensifyFields (l : JsFields) (h : mapFields l = .dfnil) :
    densifyFields l = l := by
  match l with
  | .fnil => rfl
  | .fcons n v rest =>
      rw [mapFields] at h
      split at h
      · next hblank => rw [densifyFields, blankDensify v hblank, blankDensifyFields rest h]
      · simp at h
end

/-- Map entries whose per-pair maps are all `''` densify to themselves. -/
theorem blankDensifyPairs (ps : JsPairs) (h : dmlAllBlank (mapPairs ps) = true) :
    densifyPairs ps = ps := by
  match ps with
  | .pnil => rfl
  | .pcons k v rest =>
      rw [mapPairs] at h
      simp only [dmlAllBlank, Bool.and_eq_true, decide_eq_true_eq] at h
      obtain ⟨h1, h2⟩ := h
      by_cases hc : mapData k = DataMap.blank ∧ mapData v = DataMap.blank
      · rw [densifyPairs, blankDensify k hc.1, blankDensify v hc.2, blankDensifyPairs rest h2]
      · rw [if_neg hc] at h1
        simp at h1

/-- Set members whose per-member maps are all `''` densify to
themselves. -/
theorem blankDensifyElems (es : JsElems) (h : dmlAllBlank (mapElems es) = true) :
    densifyElems es = es := by
  match es with
  | .enil => rfl
  | .econs v rest =>
      rw [mapElems] at h
      simp only [dmlAllBlank, Bool.and_eq_true, decide_eq_true_eq] at h
      rw [densifyElems, blankDensify v h.1, blankDensifyElems rest h.2]

/-- When no pair needs transformation, the packed entries array is the
plain pair layout. -/
theorem blankPackPairs (t : CodecTable) (ps : JsPairs)
    (h : dmlAllBlank (mapPairs ps) = true) :
    packPairs t (mapPairs ps) ps = pairItems ps := by
  match ps with
  | .pnil => simp [mapPairs, packPairs, pairItems]
  | .pcons k v rest =>
      rw [mapPairs] at h ⊢
      simp only [dmlAllBlank, Bool.and_eq_true, decide_eq_true_eq] at h
      obtain ⟨h1, h2⟩ := h
      by_cases hc : mapData k = DataMap.blank ∧ mapData v = DataMap.blank
      · rw [if_pos hc]
        rw [packPairs, pairItems, blankPackPairs t rest h2]
        intro mk mv hh
        simp at hh
      · rw [if_neg hc] at h1
        simp at h1

/-- When no member needs transformation, the packed members array is the
plain member layout. -/
theorem blankPackElems (t : CodecTable) (es : JsElems)
    (h : dmlAllBlank (mapElems es) = true) :
    packElems t (mapElems es) es = elemItems es := by
  match es with
  | .enil => simp [mapElems, packElems, elemItems]
  | .econs v rest =>
      rw [mapElems] at h ⊢
      simp only [dmlAllBlank, Bool.and_eq_true, decide_eq_true_eq] at h
      rw [packElems, elemItems, h.1, blankPackElems t rest h.2]
      simp [packItem]

/-- Evaluating a two-slot array unpack (the shape of a packed
`[key, value]` pair). -/
theorem unpackItems_two (t : CodecTable) (m1 m2 : DataMap) (r1 r2 : JsValue)
    (path : String) (i : Nat) (x1 x2 : JsValue)
    (h1 : unpackItem t m1 r1 (path ++ "[" ++ toString i ++ "]") = .ok x1)
    (h2 : unpackItem t m2 r2 (path ++ "[" ++ toString (i + 1) ++ "]") = .ok x2) :
    unpackItems t (.dcons m1 (.dcons m2 .dnil)) (.icons r1 (.icons r2 .inil)) path i =
      .ok (.icons x1 (.icons x2 .inil)) := by
  rw [unpackItems, h1, unpackItems, h2]
  simp [unpackItems, Bind.bind, Except.bind]

mutual
/-- Round-trip of a single supported value: unpacking the packed form
restores the value up to filling sparse holes with `undefined`. -/
theorem rtV (t : CodecTable) (path : String) (v : JsValue) (h : supported v = true) :
    unpackItem t (mapData v) (packItem t (mapData v) v) path = .ok (densify v) := by
  match v with
  | .vnull => simp [mapData, packItem, unpackItem, densify]
  | .vbool b => simp [mapData, packItem, unpackItem, densify]
  | .vnum n => simp [mapData, packItem, unpackItem, densify]
  | .vstr s => simp [mapData, packItem, unpackItem, densify]
  | .vundef => simp [mapData, packItem, unpackItem, densify]
  | .vdate iso => simp [mapData, packItem, unpackItem, densify]
  | .vu8 bytes =>
      have hb : (bytes.all fun b => b < 256) = true := by simpa [supported] using h
      simp [mapData, packItem, unpackItem, densify, b64_roundtrip bytes hb]
  | .vab bytes =>
      have hb : (bytes.all fun b => b < 256) = true := by simpa [supported] using h
      simp [mapData, packItem, unpackItem, densify, b64_roundtrip bytes hb]
  | .vfun => simp [supported] at h
  | .vmagic m => simp [supported] at h
  | .vsharedfun s => simp [supported] at h
  | .verrenv b m r th => simp [supported] at h
  | .vpacked m r th => simp [supported] at h
  | .varr l =>
      have hsup : supportedItems l = true := by simpa [supported] using h
      by_cases hb : dmlAllBlank (mapItems l) = true
      · have hmap : mapData (.varr l) = .blank := by rw [mapData, if_pos hb]
        rw [hmap]
        simp [packItem, unpackItem, densify, blankDensifyItems l hb]
      · have hmap : mapData (.varr l) = .arr (mapItems l) := by rw [mapData, if_neg hb]
        rw [hmap]
        simp only [packItem, unpackItem]
        rw [rtItems t path 0 l hsup]
        simp [Bind.bind, Except.bind, densify]
  | .vobj l =>
      simp only [supported, Bool.and_eq_true, decide_eq_true_eq] at h
      obtain ⟨hnodup, hsupf⟩ := h
      have hc : lookupCompat (mapFields l) l := lookupCompat_self l hnodup
      cases hmf : mapFields l with
      | dfnil =>
          have hmap : mapData (.vobj l) = .blank := by rw [mapData, hmf]
          rw [hmap]
          simp [packItem, unpackItem, densify, blankDensifyFields l hmf]
      | dfcons n0 m0 restms =>
          have hmap : mapData (.vobj l) = .fields (.dfcons n0 m0 restms) := by
            rw [mapData, hmf]
          rw [hmf] at hc
          rw [hmap]
          simp only [packItem, unpackItem]
          rw [rtFields t path (.dfcons n0 m0 restms) l hsupf hc]
          simp [Bind.bind, Except.bind, densify]
  | .verror base m s props =>
      simp only [supported, Bool.and_eq_true, decide_eq_true_eq, Bool.not_eq_true',
        decide_eq_false_iff_not] at h
      obtain ⟨⟨⟨⟨⟨⟨hbase, hm⟩, hs⟩, hnodup⟩, hmsg⟩, hstk⟩, hsupf⟩ := h
      match m, s with
      | .vstr mstr, .vstr sstr =>
          have hc : lookupCompat (mapFields props) props := lookupCompat_self props hnodup
          rw [mapData]
          simp only [packItem]
          cases hmf : mapFields props with
          | dfnil =>
              rw [packFields_dfnil]
              simp only [unpackItem]
              rw [unpackEnv_none]
              simp only [Bind.bind, Except.bind, buildError, assembleError,
                if_pos rfl]
              rw [assembleError_no_slots props hmsg hstk]
              simp [normalizeBase_valid base (by
                cases base with
                | none => rfl
                | some bs => simpa using hbase), densify,
                blankDensifyFields props hmf]
          | dfcons n0 m0 restms =>
              rw [hmf] at hc
              have hlm : dmfLookup (mapFields props) "message" = Option.none :=
                dmfLookup_mapFields_not_mem props _ hmsg
              have hls : dmfLookup (mapFields props) "stack" = Option.none :=
                dmfLookup_mapFields_not_mem props _ hstk
              rw [hmf] at hlm hls
              simp only [unpackItem]
              rw [unpackEnv_some]
              simp only [unpackItem]
              rw [unpackFields, hlm, unpackFields, hls]
              rw [rtFields t path (.dfcons n0 m0 restms) props hsupf hc]
              simp only [Bind.bind, Except.bind, buildError, assembleError, if_pos rfl]
              rw [assembleError_no_slots (densifyFields props)
                (by rw [fieldNames_densifyFields]; exact hmsg)
                (by rw [fieldNames_densifyFields]; exact hstk)]
              simp [normalizeBase_valid base (by
                cases base with
                | none => rfl
                | some bs => simpa using hbase), densify]
  | .vmap ps =>
      have hsup : supportedPairs ps = true := by simpa [supported] using h
      rw [mapData]
      simp only [packItem, packMapEnv]
      by_cases hb : dmlAllBlank (mapPairs ps) = true
      · rw [if_pos hb, blankPackPairs t ps hb]
        simp only [unpackItem]
        rw [unpackEnv_none]
        simp [Bind.bind, Except.bind, itemsToPairs_pairItems, densify,
          blankDensifyPairs ps hb]
      · rw [if_neg hb]
        simp only [unpackItem]
        rw [unpackEnv_some]
        simp only [unpackItem]
        rw [rtPairs t path 0 ps hsup]
        simp [Bind.bind, Except.bind, itemsToPairs_pairItems, densify]
  | .vset es =>
      have hsup : supportedElems es = true := by simpa [supported] using h
      rw [mapData]
      simp only [packItem, packSetEnv]
      by_cases hb : dmlAllBlank (mapElems es) = true
      · rw [if_pos hb, blankPackElems t es hb]
        simp only [unpackItem]
        rw [unpackEnv_none]
        simp [Bind.bind, Except.bind, itemsToElems_elemItems, densify,
          blankDensifyElems es hb]
      · rw [if_neg hb]
        simp only [unpackItem]
        rw [unpackEnv_some]
        simp only [unpackItem]
        rw [rtElems t path 0 es hsup]
        simp [Bind.bind, Except.bind, itemsToElems_elemItems, densify]
termination_by sizeOf v

/-- Round-trip of an array's slots, hole by hole. -/
theorem rtItems (t : CodecTable) (path : String) (i : Nat) (l : JsItems)
    (h : supportedItems l = true) :
    unpackItems t (mapItems l) (packItems t (mapItems l) l) path i =
      .ok (densifyItems l) := by
  match l with
  | .inil => simp [mapItems, packItems, unpackItems, densifyItems]
  | .ihole rest =>
      have hsup : supportedItems rest = true := by simpa [supportedItems] using h
      simp only [mapItems, packItems, packItem, unpackItems, unpackItem]
      rw [rtItems t path (i + 1) rest hsup]
      simp [Bind.bind, Except.bind, densifyItems]
  | .icons v rest =>
      simp only [supportedItems, Bool.and_eq_true] at h
      simp only [mapItems, packItems, unpackItems]
      rw [rtV t (path ++ "[" ++ toString i ++ "]") v h.1, rtItems t path (i + 1) rest h.2]
      simp [Bind.bind, Except.bind, densifyItems]
termination_by sizeOf l

/-- Round-trip of an object's fields against a compatible lookup map. -/
theorem rtFields (t : CodecTable) (path : String) (ms : DMFields) (l : JsFields)
    (h : supportedFields l = true) (hc : lookupCompat ms l) :
    unpackFields t ms (packFields t ms l) path = .ok (densifyFields l) := by
  match l with
  | .fnil => simp [packFields, unpackFields, densifyFields]
  | .fcons n v rest =>
      simp only [supportedFields, Bool.and_eq_true] at h
      obtain ⟨hlook, hcrest⟩ := hc
      by_cases hb : mapData v = DataMap.blank
      · rw [if_pos hb] at hlook
        rw [packFields, unpackFields, hlook]
        simp only [rtFields t path ms rest h.2 hcrest, Bind.bind, Except.bind]
        simp [densifyFields, blankDensify v hb]
      · rw [if_neg hb] at hlook
        rw [packFields, unpackFields, hlook]
        simp only [rtV t (path ++ "." ++ n) v h.1,
          rtFields t path ms rest h.2 hcrest, Bind.bind, Except.bind]
        simp [densifyFields]
termination_by sizeOf l

/-- Round-trip of a map's packed entries array. -/
theorem rtPairs (t : CodecTable) (path : String) (i : Nat) (ps : JsPairs)
    (h : supportedPairs ps = true) :
    unpackItems t (mapPairs ps) (packPairs t (mapPairs ps) ps) path i =
      .ok (pairItems (densifyPairs ps)) := by
  match ps with
  | .pnil => simp [mapPairs, packPairs, unpackItems, pairItems, densifyPairs]
  | .pcons k v rest =>
      simp only [supportedPairs, Bool.and_eq_true] at h
      obtain ⟨⟨hk, hv⟩, hrest⟩ := h
      rw [mapPairs]
      by_cases hc : mapData k = DataMap.blank ∧ mapData v = DataMap.blank
      · rw [if_pos hc]
        rw [packPairs, unpackItems, unpackItem]
        rw [rtPairs t path (i + 1) rest hrest]
        simp [Bind.bind, Except.bind, pairItems, densifyPairs,
          blankDensify k hc.1, blankDensify v hc.2]
        intro mk mv hh
        simp at hh
      · rw [if_neg hc]
        rw [packPairs]
        rw [unpackItems]
        have hkv := unpackItems_two t (mapData k) (mapData v)
          (packItem t (mapData k) k) (packItem t (mapData v) v)
          (path ++ "[" ++ toString i ++ "]") 0 (densify k) (densify v)
          (rtV t _ k hk) (rtV t _ v hv)
        rw [unpackItem, hkv]
        rw [rtPairs t path (i + 1) rest hrest]
        simp [Bind.bind, Except.bind, pairItems, densifyPairs]
termination_by sizeOf ps

/-- Round-trip of a set's packed members array. -/
theorem rtElems (t : CodecTable) (path : String) (i : Nat) (es : JsElems)
    (h : supportedElems es = true) :
    unpackItems t (mapElems es) (packElems t (mapElems es) es) path i =
      .ok (elemItems (densifyElems es)) := by
  match es with
  | .enil => simp [mapElems, packElems, unpackItems, elemItems, densifyElems]
  | .econs v rest =>
      simp only [supportedElems, Bool.and_eq_true] at h
      rw [mapElems, packElems, unpackItems]
      rw [rtV t (path ++ "[" ++ toString i ++ "]") v h.1]
      rw [rtElems t path (i + 1) rest h.2]
      simp [Bind.bind, Except.bind, elemItems, densifyElems]
termination_by sizeOf es
end

mutual
/-- Every value deep-equals its densified form: a sparse hole compares
equal to the explicit `undefined` that unpacking restores. -/
theorem deepEqDensify (v : JsValue) : deepEq v (densify v) = true := by
  match v with
  | .vnull => simp [densify, deepEq]
  | .vbool b => simp [densify, deepEq]
  | .vnum n => simp [densify, deepEq]
  | .vstr s => simp [densify, deepEq]
  | .vundef => simp [densify, deepEq]
  | .vdate iso => simp [densify, deepEq]
  | .vu8 bytes => simp [densify, deepEq]
  | .vab bytes => simp [densify, deepEq]
  | .vfun => simp [densify, deepEq]
  | .vmagic m => simp [densify, deepEq]
  | .vsharedfun s => simp [densify, deepEq]
  | .verrenv b m r th => simp [densify, deepEq]
  | .vpacked m r th => simp [densify, deepEq]
  | .varr l =>
      rw [densify, deepEq]
      exact deepEqDensifyItems l
  | .vobj l =>
      rw [densify, deepEq]
      exact deepEqDensifyFields l
  | .vmap ps =>
      rw [densify, deepEq]
      exact deepEqDensifyPairs ps
  | .vset es =>
      rw [densify, deepEq]
      exact deepEqDensifyElems es
  | .verror b m s props =>
      rw [densify, deepEq]
      simp [deepEqDensify m, deepEqDensify s, deepEqDensifyFields props]
termination_by sizeOf v

theorem deepEqDensifyItems (l : JsItems) : deepEqItems l (densifyItems l) = true := by
  match l with
  | .inil => simp [densifyItems, deepEqItems]
  | .ihole rest =>
      rw [densifyItems, deepEqItems]
      simp [deepEq, deepEqDensifyItems rest]
  | .icons v rest =>
      rw [densifyItems, deepEqItems]
      simp [deepEqDensify v, deepEqDensifyItems rest]
termination_by sizeOf l

theorem deepEqDensifyFields (l : JsFields) : deepEqFields l (densifyFields l) = true := by
  match l with
  | .fnil => simp [densifyFields, deepEqFields]
  | .fcons n v rest =>
      rw [densifyFields, deepEqFields]
      simp [deepEqDensify v, deepEqDensifyFields rest]
termination_by sizeOf l

theorem deepEqDensifyPairs (ps : JsPairs) : deepEqPairs ps (densifyPairs ps) = true := by
  match ps with
  | .pnil => simp [densifyPairs, deepEqPairs]
  | .pcons k v rest =>
      rw [densifyPairs, deepEqPairs]
      simp [deepEqDensify k, deepEqDensify v, deepEqDensifyPairs rest]
termination_by sizeOf ps

theorem deepEqDensifyElems (es : JsElems) : deepEqElems es (densifyElems es) = true := by
  match es with
  | .enil => simp [densifyElems, deepEqElems]
  | .econs v rest =>
      rw [densifyElems, deepEqElems]
      simp [deepEqDensify v, deepEqDensifyElems rest]
termination_by sizeOf es
end

/-- `packData` of a value the classifier leaves untouched. -/
theorem packData_blank (t : CodecTable) (v : JsValue) (hb : mapData v = DataMap.blank) :
    packData t v = ⟨Option.none, v, false⟩ := by
  simp [packData, hb, packItem]

/-- `packData` of a value needing transformation. -/
theorem packData_notBlank (t : CodecTable) (v : JsValue)
    (hb : ¬ mapData v = DataMap.blank) :
    packData t v = ⟨some (mapData v), packItem t (mapData v) v, false⟩ := by
  simp [packData, hb]

/-- C1.  For every value of a type the spec lists as supported
(primitives including NaN, `undefined`, dates, errors from the fixed
constructor set with message/stack and own enumerable properties, typed
arrays, raw buffers, maps, sets, sparse arrays, and objects with
undefined-valued fields), unpacking the result of packing it
(`unpackData` after `packData`) succeeds and returns a value that
deep-equals the original, on any peer tables (supported values contain
no bridgeable references, so the tables are not consulted). -/
theorem claim_C1_roundtrip (t : CodecTable) (path : String) (v : JsValue)
    (h : supported v = true) :
    ∃ w, unpackData t (packData t v) path = .ok w ∧ deepEq v w = true := by
  refine ⟨densify v, ?_, deepEqDensify v⟩
  by_cases hb : mapData v = DataMap.blank
  · rw [packData_blank t v hb, unpackData]
    simp only
    rw [unpackEnv_none, blankDensify v hb]
  · rw [packData_notBlank t v hb, unpackData]
    simp only
    rw [unpackEnv_some]
    exact rtV t path v h

/-- A codec table with no objects, as the round-trip of pure data never
consults it. -/
def emptyTable : CodecTable :=
  ⟨fun _ => Option.none, fun _ => Option.none, fun _ => Option.none⟩

/-- A `TypeError` carrying an own enumerable property whose value is an
object with an undefined-valued field. -/
def c1Err : JsValue :=
  .verror (some "TypeError") (.vstr "nope") (.vstr "trace")
    (.fcons "payload" (.vobj (.fcons "x" .vundef (.fcons "y" (.vnum (.fin 1)) .fnil))) .fnil)

/-- A value exercising every kind the round-trip claim lists: NaN,
`undefined`, a date, a `TypeError` with an own enumerable property, a
typed array, a raw buffer, a map, a set, a sparse hole, and an object
with an undefined-valued field. -/
def c1Example : JsValue :=
  .varr
    (.icons (.vnum .nan)
    (.icons .vundef
    (.icons (.vdate "2017-07-14T02:40:00.000Z")
    (.icons c1Err
    (.icons (.vu8 [1, 2, 255])
    (.icons (.vab [0, 16])
    (.icons (.vmap (.pcons .vnull (.vnum (.fin 1)) (.pcons (.vstr "k") .vundef .pnil)))
    (.icons (.vset (.econs .vnull (.econs (.vnum (.fin 2)) .enil)))
    (.ihole
    (.icons (.vobj (.fcons "x" (.vnum (.fin 1)) (.fcons "y" .vundef .fnil)))
    .inil))))))))))

theorem claim_C1_roundtrip_witness :
    supported c1Example = true ∧
    ∃ w, unpackData emptyTable (packData emptyTable c1Example) "root" = .ok w ∧
      deepEq c1Example w = true := by
  have hsup : supported c1Example = true := by
    simp [c1Example, c1Err, supported, supportedItems, supportedFields, supportedPairs,
      supportedElems, fieldNames, errorBases]
  exact ⟨hsup, claim_C1_roundtrip emptyTable "root" c1Example hsup⟩

/-- C7.  For every `'o'` envelope given to `unpackData`: a `null` raw
throws a `TypeError` whose message is `Closed bridge object at <path>`;
a non-numeric raw throws a `TypeError`; a numeric raw whose
`getObject(-raw)` yields no object throws a `RangeError` mentioning
`Invalid packedId`; otherwise the unpack returns exactly the object
`getObject(-raw)` yields. -/
theorem claim_C7_unpack_obj (t : CodecTable) (path : String) :
    (unpackData t ⟨some .obj, .vnull, false⟩ path =
      .error (mkTypeError ("Closed bridge object at " ++ path))) ∧
    (∀ raw, raw ≠ .vnull → (∀ n, raw ≠ .vnum n) →
      ∃ msg, unpackData t ⟨some .obj, raw, false⟩ path = .error (mkTypeError msg)) ∧
    (∀ n, t.getObject n.neg = Option.none →
      unpackData t ⟨some .obj, .vnum n, false⟩ path =
        .error (mkRangeError ("Invalid packedId " ++ showJsNumber n ++ " at " ++ path))) ∧
    (∀ n o, t.getObject n.neg = some o →
      unpackData t ⟨some .obj, .vnum n, false⟩ path = .ok o) := by
  refine ⟨?_, ?_, ?_, ?_⟩
  · rw [unpackData]
    simp only
    rw [unpackEnv_some]
    simp [unpackItem]
  · intro raw h1 h2
    rw [unpackData]
    simp only
    rw [unpackEnv_some]
    cases raw with
    | vnull => exact absurd rfl h1
    | vnum n => exact absurd rfl (h2 n)
    | vbool b => exact ⟨"Expecting a packedId at " ++ path, by simp [unpackItem]⟩
    | vstr s => exact ⟨"Expecting a packedId at " ++ path, by simp [unpackItem]⟩
    | vundef => exact ⟨"Expecting a packedId at " ++ path, by simp [unpackItem]⟩
    | vdate iso => exact ⟨"Expecting a packedId at " ++ path, by simp [unpackItem]⟩
    | verror b m s p => exact ⟨"Expecting a packedId at " ++ path, by simp [unpackItem]⟩
    | vu8 b => exact ⟨"Expecting a packedId at " ++ path, by simp [unpackItem]⟩
    | vab b => exact ⟨"Expecting a packedId at " ++ path, by simp [unpackItem]⟩
    | vmap ps => exact ⟨"Expecting a packedId at " ++ path, by simp [unpackItem]⟩
    | vset es => exact ⟨"Expecting a packedId at " ++ path, by simp [unpackItem]⟩
    | varr l => exact ⟨"Expecting a packedId at " ++ path, by simp [unpackItem]⟩
    | vobj l => exact ⟨"Expecting a packedId at " ++ path, by simp [unpackItem]⟩
    | vfun => exact ⟨"Expecting a packedId at " ++ path, by simp [unpackItem]⟩
    | vmagic m => exact ⟨"Expecting a packedId at " ++ path, by simp [unpackItem]⟩
    | vsharedfun s => exact ⟨"Expecting a packedId at " ++ path, by simp [unpackItem]⟩
    | verrenv b m r th => exact ⟨"Expecting a packedId at " ++ path, by simp [unpackItem]⟩
    | vpacked m r th => exact ⟨"Expecting a packedId at " ++ path, by simp [unpackItem]⟩
  · intro n hn
    rw [unpackData]
    simp only
    rw [unpackEnv_some]
    simp [unpackItem, hn]
  · intro n o ho
    rw [unpackData]
    simp only
    rw [unpackEnv_some]
    simp [unpackItem, ho]

/-- A table holding one owned object under id 2, for the `'o'` unpack
witness. -/
def c7Table : CodecTable :=
  ⟨fun _ => Option.none,
   fun n => if n = .fin 2 then some (.vstr "obj2") else Option.none,
   fun _ => Option.none⟩

theorem claim_C7_unpack_obj_witness :
    unpackData c7Table ⟨some .obj, .vnum (.fin (-2)), false⟩ "root" = .ok (.vstr "obj2") ∧
    unpackData c7Table ⟨some .obj, .vnull, false⟩ "root" =
      .error (mkTypeError ("Closed bridge object at " ++ "root")) ∧
    unpackData c7Table ⟨some .obj, .vnum (.fin 5), false⟩ "root" =
      .error (mkRangeError ("Invalid packedId " ++ showJsNumber (.fin 5) ++ " at " ++ "root")) := by
  refine ⟨?_, ?_, ?_⟩
  · exact (claim_C7_unpack_obj c7Table "root").2.2.2 (.fin (-2)) (.vstr "obj2")
      (by simp [c7Table, JsNumber.neg])
  · exact (claim_C7_unpack_obj c7Table "root").1
  · exact (claim_C7_unpack_obj c7Table "root").2.2.1 (.fin 5)
      (by simp [c7Table, JsNumber.neg]; intro hh; exact absurd hh (by norm_num))

/-- A user callback, classified by the behaviour the event layer reacts
to: well-behaved, synchronously throwing, or returning a then-able that
rejects. -/
inductive Listener where
  | fine : Listener
  | throws : JsValue → Listener
  | rejects : JsValue → Listener
deriving DecidableEq

/-- One slot found while walking a bridgeable object's prototype chain:
its name, whether it is enumerable, and either its value or the error
its getter throws. -/
inductive FieldVal where
  | fval : JsValue → FieldVal
  | fthrow : JsValue → FieldVal
deriving DecidableEq

/-- A property slot of a bridgeable object. -/
structure FieldEntry where
  name : String
  enumerable : Bool
  val : FieldVal
deriving DecidableEq

/-- A bridgeable object (or proxy), seen through its magic record, the
shared base name its prototype chain may carry, its property slots
(own plus inherited, in `getOwnPropertyNames` walk order), its event
listeners and the bridges subscribed to it. -/
structure BObj where
  magic : MagicRec
  base : Option String
  fields : List FieldEntry
  listeners : List (String × List Listener)
  bridges : List Nat

/-- The value a bridgeable object stands for inside the data codec:
object identity is represented by the magic record (its `localId` is
process-unique). -/
def objValue (o : BObj) : JsValue := .vmagic o.magic

/-- Association-list lookup, modelling JavaScript map-object indexing. -/
def alookup {α β : Type} [DecidableEq α] : List (α × β) → α → Option β
  | [], _ => Option.none
  | (k, v) :: rest, key => if k = key then some v else alookup rest key

/-- Map-object assignment: replace an existing key in place, append a
new one. -/
def ainsert {α β : Type} [DecidableEq α] (l : List (α × β)) (key : α) (v : β) :
    List (α × β) :=
  if (alookup l key).isSome then
    l.map fun p => if p.1 = key then (key, v) else p
  else l ++ [(key, v)]

/-- Map-object `delete`. -/
def aremove {α β : Type} [DecidableEq α] : List (α × β) → α → List (α × β)
  | [], _ => []
  | p :: rest, key => if p.1 = key then aremove rest key else p :: aremove rest key

/-- Replace the value under a key when present (in-place mutation of a
shared record). -/
def amodify {α β : Type} [DecidableEq α] (l : List (α × β)) (key : α) (v : β) :
    List (α × β) :=
  l.map fun p => if p.1 = key then (key, v) else p

/-- One slot of the per-object value cache: either the last packed value
or the sentinel `dirtyValue`, which no user value ever compares equal
to (`src/objects.js`). -/
inductive CacheVal where
  | dirtySentinel : CacheVal
  | cval : JsValue → CacheVal
deriving DecidableEq

/-- The per-object name-to-last-sent-value cache. -/
def ValueCache : Type := List (String × CacheVal)

/-- A create record (`CreateMessage` in `src/protocol.js`); an empty
`on` list models the absent key. -/
structure CreateMessage where
  localId : Int
  base : Option String
  onNames : List String
  methods : List String
  props : List (String × PackedData)

/-- The `onMethod` shared subscription constant (`shareData({ onMethod,
watchMethod })` registers it under this name). -/
def onConst : JsValue := .vsharedfun "onMethod"

/-- The `watchMethod` shared subscription constant. -/
def watchConst : JsValue := .vsharedfun "watchMethod"

/-- The process-wide `sharedData` table holding the two subscription
constants. -/
def sharedTable : String → Option JsValue := fun n =>
  if n = "onMethod" then some onConst
  else if n = "watchMethod" then some watchConst
  else Option.none

/-- The regular-expression test `/^_/.test(name)`: the name begins with
an underscore. -/
def startsWithUnderscore (n : String) : Bool :=
  match n.data with
  | c :: _ => c = '_'
  | [] => false

/-- The name filter of `packObject` (`src/objects.js`): skip the magic
slot, names starting with an underscore, and `constructor`. -/
def packNameOk (n : String) : Bool :=
  ¬ n = MAGIC_KEY ∧ ¬ startsWithUnderscore n = true ∧ ¬ n = "constructor"

/-- The per-name classification loop of `packObject`
(`src/objects.js` lines 69-82): a throwing getter stores the dirty
sentinel and packs the thrown value; a value identical to `onMethod` is
pushed on the `on` list; any function lands in `methods`; everything
else is cached and packed.  Results are returned in walk order as
(cache, on, methods, props). -/
def packObjectFields (t : CodecTable) :
    List FieldEntry → ValueCache × List String × List String × List (String × PackedData)
  | [] => ([], [], [], [])
  | fe :: rest =>
      let (cache, onl, methods, props) := packObjectFields t rest
      match fe.val with
      | .fthrow e =>
          ((fe.name, .dirtySentinel) :: cache, onl, methods,
            (fe.name, packThrow t e) :: props)
      | .fval v =>
          let on2 := if v = onConst then fe.name :: onl else onl
          if typeofString v = "function" then (cache, on2, fe.name :: methods, props)
          else ((fe.name, .cval v) :: cache, on2, methods,
            (fe.name, packData t v) :: props)

/-- `packObject` from `src/objects.js`: walk the object's names, filter
them, classify each, and return the initial value cache together with
the create record. -/
def packObject (t : CodecTable) (o : BObj) : ValueCache × CreateMessage :=
  let kept := o.fields.filter fun fe => packNameOk fe.name
  let (cache, onl, methods, props) := packObjectFields t kept
  (cache, ⟨o.magic.localId, o.base, onl, methods, props⟩)

/-- The names a create record mentions anywhere (methods, `on` hooks, or
the property snapshot). -/
def createNames (c : CreateMessage) : List String :=
  c.methods ++ c.onNames ++ c.props.map fun p => p.1

/-- Where the classification loop of `packObject` puts every processed
slot, and that it invents no names. -/
theorem packObjectFields_classify (t : CodecTable) (l : List FieldEntry)
    (cache : ValueCache) (onl methods : List String) (props : List (String × PackedData))
    (heq : packObjectFields t l = (cache, onl, methods, props)) :
    (∀ fe, fe ∈ l →
      (∀ e, fe.val = .fthrow e → fe.name ∈ props.map fun p => p.1) ∧
      (∀ v, fe.val = .fval v → typeofString v = "function" → fe.name ∈ methods) ∧
      (∀ v, fe.val = .fval v → v = onConst → fe.name ∈ onl) ∧
      (∀ v, fe.val = .fval v → ¬ typeofString v = "function" →
        fe.name ∈ props.map fun p => p.1)) ∧
    (∀ n, n ∈ methods ∨ n ∈ onl ∨ n ∈ props.map (fun p => p.1) →
      ∃ fe, fe ∈ l ∧ fe.name = n) := by
  induction l generalizing cache onl methods props with
  | nil =>
      simp only [packObjectFields, Prod.mk.injEq] at heq
      obtain ⟨h1, h2, h3, h4⟩ := heq
      subst h1; subst h2; subst h3; subst h4
      refine ⟨fun fe hmem => absurd hmem (List.not_mem_nil fe), fun n hn => ?_⟩
      rcases hn with hn | hn | hn <;> simp at hn
  | cons fe0 rest ih =>
      cases hrec : packObjectFields t rest with
      | mk c1 r1 =>
        obtain ⟨o1, m1, p1⟩ := r1
        obtain ⟨hall, hnames⟩ := ih c1 o1 m1 p1 hrec
        simp only [packObjectFields, hrec] at heq
        cases hv : fe0.val with
        | fthrow e =>
            rw [hv] at heq
            simp only [Prod.mk.injEq] at heq
            obtain ⟨hc, ho, hm, hp⟩ := heq
            subst hc; subst ho; subst hm; subst hp
            constructor
            · intro fe hmem
              rcases List.mem_cons.mp hmem with hfe | hfe
              · subst hfe
                refine ⟨fun e2 _ => by simp, ?_, ?_, ?_⟩ <;>
                  (intro v hv2
                   rw [hv] at hv2
                   simp at hv2)
              · obtain ⟨h1, h2, h3, h4⟩ := hall fe hfe
                exact ⟨fun e2 he2 => by simp [h1 e2 he2], h2, h3,
                  fun v hv2 hnf => by simp [h4 v hv2 hnf]⟩
            · intro n hn
              rcases hn with hn | hn | hn
              · obtain ⟨fe, hfe, rfl⟩ := hnames n (Or.inl hn)
                exact ⟨fe, List.mem_cons_of_mem _ hfe, rfl⟩
              · obtain ⟨fe, hfe, rfl⟩ := hnames n (Or.inr (Or.inl hn))
                exact ⟨fe, List.mem_cons_of_mem _ hfe, rfl⟩
              · simp only [List.map_cons, List.mem_cons] at hn
                rcases hn with hn | hn
                · exact ⟨fe0, List.mem_cons_self _ _, hn.symm⟩
                · obtain ⟨fe, hfe, rfl⟩ := hnames n (Or.inr (Or.inr hn))
                  exact ⟨fe, List.mem_cons_of_mem _ hfe, rfl⟩
        | fval v0 =>
            rw [hv] at heq
            simp only [] at heq
            by_cases hfun : typeofString v0 = "function"
            · rw [if_pos hfun] at heq
              simp only [Prod.mk.injEq] at heq
              obtain ⟨hc, ho, hm, hp⟩ := heq
              subst hc; subst ho; subst hm; subst hp
              constructor
              · intro fe hmem
                rcases List.mem_cons.mp hmem with hfe | hfe
                · subst hfe
                  refine ⟨?_, fun v _ _ => by simp, ?_, ?_⟩
                  · intro e he
                    rw [hv] at he
                    simp at he
                  · intro v hv2 hvon
                    rw [hv] at hv2
                    cases hv2
                    rw [hvon, if_pos rfl]
                    simp
                  · intro v hv2 hnf
                    rw [hv] at hv2
                    cases hv2
                    exact absurd hfun hnf
                · obtain ⟨h1, h2, h3, h4⟩ := hall fe hfe
                  refine ⟨h1, fun v hv2 hf => by simp [h2 v hv2 hf], ?_, h4⟩
                  intro v hv2 hvon
                  have hmem2 := h3 v hv2 hvon
                  by_cases hon : v0 = onConst
                  · rw [if_pos hon]
                    simp [hmem2]
                  · rw [if_neg hon]
                    exact hmem2
              · intro n hn
                rcases hn with hn | hn | hn
                · simp only [List.mem_cons] at hn
                  rcases hn with rfl | hn
                  · exact ⟨fe0, List.mem_cons_self _ _, rfl⟩
                  · obtain ⟨fe, hfe, rfl⟩ := hnames n (Or.inl hn)
                    exact ⟨fe, List.mem_cons_of_mem _ hfe, rfl⟩
                · by_cases hon : v0 = onConst
                  · rw [if_pos hon] at hn
                    simp only [List.mem_cons] at hn
                    rcases hn with rfl | hn
                    · exact ⟨fe0, List.mem_cons_self _ _, rfl⟩
                    · obtain ⟨fe, hfe, rfl⟩ := hnames n (Or.inr (Or.inl hn))
                      exact ⟨fe, List.mem_cons_of_mem _ hfe, rfl⟩
                  · rw [if_neg hon] at hn
                    obtain ⟨fe, hfe, rfl⟩ := hnames n (Or.inr (Or.inl hn))
                    exact ⟨fe, List.mem_cons_of_mem _ hfe, rfl⟩
                · obtain ⟨fe, hfe, rfl⟩ := hnames n (Or.inr (Or.inr hn))
                  exact ⟨fe, List.mem_cons_of_mem _ hfe, rfl⟩
            · rw [if_neg hfun] at heq
              simp only [Prod.mk.injEq] at heq
              obtain ⟨hc, ho, hm, hp⟩ := heq
              subst hc; subst ho; subst hm; subst hp
              have hno : ¬ v0 = onConst := by
                intro hh
                rw [hh] at hfun
                exact absurd rfl hfun
              constructor
              · intro fe hmem
                rcases List.mem_cons.mp hmem with hfe | hfe
                · subst hfe
                  refine ⟨?_, ?_, ?_, fun v _ _ => by simp⟩
                  · intro e he
                    rw [hv] at he
                    simp at he
                  · intro v hv2 hf
                    rw [hv] at hv2
                    cases hv2
                    exact absurd hf hfun
                  · intro v hv2 hvon
                    rw [hv] at hv2
                    cases hv2
                    exact absurd hvon hno
                · obtain ⟨h1, h2, h3, h4⟩ := hall fe hfe
                  refine ⟨fun e he => by simp [h1 e he], h2, ?_,
                    fun v hv2 hnf => by simp [h4 v hv2 hnf]⟩
                  intro v hv2 hvon
                  have hmem2 := h3 v hv2 hvon
                  rw [if_neg hno]
                  exact hmem2
              · intro n hn
                rcases hn with hn | hn | hn
                · obtain ⟨fe, hfe, rfl⟩ := hnames n (Or.inl hn)
                  exact ⟨fe, List.mem_cons_of_mem _ hfe, rfl⟩
                · rw [if_neg hno] at hn
                  obtain ⟨fe, hfe, rfl⟩ := hnames n (Or.inr (Or.inl hn))
                  exact ⟨fe, List.mem_cons_of_mem _ hfe, rfl⟩
                · simp only [List.map_cons, List.mem_cons] at hn
                  rcases hn with hn | hn
                  · exact ⟨fe0, List.mem_cons_self _ _, hn.symm⟩
                  · obtain ⟨fe, hfe, rfl⟩ := hnames n (Or.inr (Or.inr hn))
                    exact ⟨fe, List.mem_cons_of_mem _ hfe, rfl⟩

/-- The property claim C9 asserts of `packObject`, stated as the claim
words it: the create record names exactly the own+inherited *enumerable*
names passing the filter, and a function-valued name appears in
`methods` *unless* it is the shared subscription constant, in which case
it is recorded in the `on` list (and so not among the methods). -/
def c9ClaimPredicate (t : CodecTable) (o : BObj) : Prop :=
  (∀ n, n ∈ createNames (packObject t o).2 ↔
    n ∈ (o.fields.filter fun fe => packNameOk fe.name && fe.enumerable).map
      fun fe => fe.name) ∧
  (∀ fe, fe ∈ o.fields → packNameOk fe.name = true → fe.enumerable = true →
    ∀ v, fe.val = .fval v → typeofString v = "function" →
      (if v = onConst then
        fe.name ∈ (packObject t o).2.onNames ∧ ¬ fe.name ∈ (packObject t o).2.methods
       else fe.name ∈ (packObject t o).2.methods)) ∧
  (∀ fe, fe ∈ o.fields → packNameOk fe.name = true → fe.enumerable = true →
    ∀ v, fe.val = .fval v → ¬ typeofString v = "function" →
      fe.name ∈ ((packObject t o).2.props.map fun p => p.1))

/-- An object whose `on` slot holds the shared subscription constant and
which carries a non-enumerable data property. -/
def c9Obj : BObj :=
  ⟨⟨7, false, Option.none, Option.none⟩, Option.none,
   [⟨"on", true, .fval onConst⟩, ⟨"hidden", false, .fval (.vnum (.fin 1))⟩],
   [], []⟩

/-- C9 counterexample: `packObject` records an `onMethod`-valued name in
*both* `methods` and `on` (the source pushes to `on` and then falls into
the `typeof value === 'function'` branch), and it collects names with
`Object.getOwnPropertyNames`, which ignores enumerability — so the
claim, as stated, fails on `c9Obj`. -/
theorem claim_C9_counterexample : ¬ c9ClaimPredicate emptyTable c9Obj := by
  intro h
  have h2 := h.2.1 ⟨"on", true, .fval onConst⟩ (by simp [c9Obj])
    (by decide) rfl onConst rfl rfl
  rw [if_pos rfl] at h2
  revert h2
  simp [packObject, packObjectFields, c9Obj, onConst, typeofString, packNameOk,
    MAGIC_KEY, startsWithUnderscore, List.filter]

/-- C9 amended: the create record built by `packObject` contains exactly
the own+inherited names (enumerable or not, per
`Object.getOwnPropertyNames`) that are not the magic slot, do not begin
with an underscore, and are not `constructor`; each such name whose
value is a function at inspection time appears in the methods list (a
name whose value is the shared subscription constant is *additionally*
recorded in the `on` list), and every other name — plain values and
throwing getters — appears in the packed property snapshot. -/
theorem claim_C9_amended (t : CodecTable) (o : BObj) :
    (∀ n, n ∈ createNames (packObject t o).2 ↔
      n ∈ ((o.fields.filter fun fe => packNameOk fe.name).map fun fe => fe.name)) ∧
    (∀ fe, fe ∈ o.fields → packNameOk fe.name = true →
      (∀ v, fe.val = .fval v → typeofString v = "function" →
        fe.name ∈ (packObject t o).2.methods) ∧
      (∀ v, fe.val = .fval v → v = onConst → fe.name ∈ (packObject t o).2.onNames) ∧
      (∀ v, fe.val = .fval v → ¬ typeofString v = "function" →
        fe.name ∈ ((packObject t o).2.props.map fun p => p.1)) ∧
      (∀ e, fe.val = .fthrow e → fe.name ∈ ((packObject t o).2.props.map fun p => p.1))) := by
  cases hpk : packObjectFields t (o.fields.filter fun fe => packNameOk fe.name) with
  | mk c1 r1 =>
    obtain ⟨o1, m1, p1⟩ := r1
    have hcreate : (packObject t o).2 = ⟨o.magic.localId, o.base, o1, m1, p1⟩ := by
      simp [packObject, hpk]
    obtain ⟨hall, hnames⟩ := packObjectFields_classify t _ c1 o1 m1 p1 hpk
    constructor
    · intro n
      rw [hcreate]
      constructor
      · intro hn
        simp only [createNames, List.mem_append] at hn
        have hn2 : n ∈ m1 ∨ n ∈ o1 ∨ n ∈ p1.map (fun p => p.1) := by
          rcases hn with (hn | hn) | hn
          · exact Or.inl hn
          · exact Or.inr (Or.inl hn)
          · exact Or.inr (Or.inr hn)
        obtain ⟨fe, hfe, rfl⟩ := hnames n hn2
        exact List.mem_map.mpr ⟨fe, hfe, rfl⟩
      · intro hn
        obtain ⟨fe, hfe, rfl⟩ := List.mem_map.mp hn
        obtain ⟨h1, h2, h3, h4⟩ := hall fe hfe
        simp only [createNames, List.mem_append]
        cases hv : fe.val with
        | fthrow e => exact Or.inr (h1 e hv)
        | fval v =>
            by_cases hf : typeofString v = "function"
            · exact Or.inl (Or.inl (h2 v hv hf))
            · exact Or.inr (h4 v hv hf)
    · intro fe hfe hok
      have hkept : fe ∈ o.fields.filter fun fe => packNameOk fe.name :=
        List.mem_filter.mpr ⟨hfe, hok⟩
      obtain ⟨h1, h2, h3, h4⟩ := hall fe hkept
      rw [hcreate]
      exact ⟨h2, fun v hv hon => h3 v hv hon, h4, h1⟩

/-- For the amended C9: the create record of `c9Obj` lists `on` among
both its methods and its `on` hooks, and lists the non-enumerable
`hidden` name in its property snapshot. -/
theorem claim_C9_amended_witness :
    "on" ∈ (packObject emptyTable c9Obj).2.methods ∧
    "on" ∈ (packObject emptyTable c9Obj).2.onNames ∧
    "hidden" ∈ ((packObject emptyTable c9Obj).2.props.map fun p => p.1) := by
  obtain ⟨hiff, hcls⟩ := claim_C9_amended emptyTable c9Obj
  have hon := hcls ⟨"on", true, .fval onConst⟩ (by simp [c9Obj])
    (by decide)
  have hhid := hcls ⟨"hidden", false, .fval (.vnum (.fin 1))⟩ (by simp [c9Obj])
    (by decide)
  exact ⟨hon.1 onConst rfl rfl, hon.2.1 onConst rfl rfl,
    hhid.2.2.1 (.vnum (.fin 1)) rfl (by simp [typeofString])⟩

/-- A pending outgoing call: the method name is kept for the return
path string; settlement is modelled by the effect trace. -/
structure PendingCall where
  name : String
deriving DecidableEq

/-- What `markDirty` stores per dirty id: the cache and the object, as
captured at mark time (`state.js` in its current revision). -/
structure DirtyEntry where
  cache : ValueCache
  object : BObj

/-- A call message on the wire. -/
structure CallMessage where
  callId : Nat
  remoteId : Int
  name : String
  data : PackedData

/-- A change message on the wire. -/
structure ChangeMessage where
  localId : Int
  props : List (String × PackedData)

/-- An event message on the wire. -/
structure EventMessage where
  localId : Int
  name : String
  data : PackedData

/-- A return message on the wire. -/
structure ReturnMessage where
  callId : Nat
  data : PackedData

/-- The pending message under construction.  Each section is a list; an
empty list models the absent key (sections are only ever created with a
first push and are cleared by swapping in a whole fresh message). -/
structure MessageM where
  calls : List CallMessage
  changed : List ChangeMessage
  closed : List Int
  created : List CreateMessage
  events : List EventMessage
  returns : List ReturnMessage

/-- The fresh pending message. -/
def emptyMessage : MessageM := ⟨[], [], [], [], [], []⟩

/-- A message has at least one of the six sections
(`message.calls != null || ...` in `sendNow`). -/
def msgNonempty (m : MessageM) : Bool :=
  ¬ m.calls.isEmpty ∨ ¬ m.changed.isEmpty ∨ ¬ m.closed.isEmpty ∨
  ¬ m.created.isEmpty ∨ ¬ m.events.isEmpty ∨ ¬ m.returns.isEmpty

/-- The `BridgeState` of `state.js` (current revision): the two object
registries, caches, pending calls, the dirty set, the pending message
and the closed flag.  `bridgeId` stands for the state's own reference
identity, used when the admission path pushes `this` onto an object's
`bridges` list.  The scheduling fields (`throttleMs`, `lastUpdate`,
`sendPending`) drive the real-time timer and are outside the model. -/
structure BridgeStateM where
  bridgeId : Nat
  proxies : List (Int × BObj)
  objects : List (Int × BObj)
  caches : List (Int × ValueCache)
  nextCallId : Nat
  pendingCalls : List (Nat × PendingCall)
  dirty : List (Int × DirtyEntry)
  message : MessageM
  closed : Bool

/-- `BridgeState.getObject`: positive ids index the owned objects,
negative ids the proxies; a fractional or NaN index never matches a key
of the id-keyed maps. -/
def stateGetObject (s : BridgeStateM) (n : JsNumber) : Option JsValue :=
  match n with
  | .nan => Option.none
  | .fin q =>
      if q.den = 1 then
        if q.num < 0 then (alookup s.proxies (-q.num)).map objValue
        else (alookup s.objects q.num).map objValue
      else Option.none

/-- The value `BridgeState.getPackedId` returns, as a pure view (the
admission side effect is `getPackedId` below): `null` when closed,
`-remoteId` for a held proxy, the object's `localId` otherwise. -/
def getPackedIdView (s : BridgeStateM) (m : MagicRec) : Option Int :=
  if m.closed then Option.none
  else
    match m.remoteId with
    | some rid => if (alookup s.proxies rid).isSome then some (-rid) else some m.localId
    | Option.none => some m.localId

/-- The codec table a bridge state implements (`BridgeState implements
ObjectTable`), together with the process-wide shared table. -/
def tableOf (s : BridgeStateM) : CodecTable :=
  ⟨getPackedIdView s, stateGetObject s, sharedTable⟩

/-- The first admission step of `BridgeState.getPackedId`: store the
object (with this bridge appended to its `bridges` list, the
`magic.bridges.push(this)` mutation) under its `localId`. -/
def insertObjState (s : BridgeStateM) (o : BObj) : BridgeStateM :=
  let o2 : BObj := { o with bridges := o.bridges ++ [s.bridgeId] }
  { s with objects := ainsert s.objects o.magic.localId o2 }

/-- The full admission of `BridgeState.getPackedId`: store the object,
run `packObject` (against the state that already holds it), store the
cache, and append the create record to the pending message. -/
def admitState (s : BridgeStateM) (o : BObj) : BridgeStateM :=
  let s1 := insertObjState s o
  let pk := packObject (tableOf s1) o
  { s1 with
    caches := ainsert s1.caches o.magic.localId pk.1,
    message := { s1.message with created := s1.message.created ++ [pk.2] } }

/-- The owned-object branch of `BridgeState.getPackedId`: already-known
objects are returned as-is, never-seen objects are admitted. -/
def getPackedIdOwned (s : BridgeStateM) (o : BObj) : Option Int × BridgeStateM :=
  if (alookup s.objects o.magic.localId).isSome then (some o.magic.localId, s)
  else (some o.magic.localId, admitState s o)

/-- `BridgeState.getPackedId` (current `state.js`): `null` for closed
objects, `-remoteId` for held proxies, and otherwise the object's
`localId`, admitting the object on first sight. -/
def getPackedId (s : BridgeStateM) (o : BObj) : Option Int × BridgeStateM :=
  if o.magic.closed then (Option.none, s)
  else
    match o.magic.remoteId with
    | some rid =>
        if (alookup s.proxies rid).isSome then (some (-rid), s)
        else getPackedIdOwned s o
    | Option.none => getPackedIdOwned s o

/-- Inserting then looking up the same key. -/
theorem alookup_ainsert {β : Type} (l : List (Int × β)) (k : Int) (v : β) :
    alookup (ainsert l k v) k = some v := by
  rw [ainsert]
  by_cases hp : (alookup l k).isSome
  · rw [if_pos hp]
    induction l with
    | nil => simp [alookup] at hp
    | cons p rest ih =>
        obtain ⟨pk2, pv⟩ := p
        by_cases hk : pk2 = k
        · subst hk
          simp only [List.map_cons, if_true]
          rw [alookup, if_pos rfl]
        · rw [alookup, if_neg hk] at hp
          simp only [List.map_cons]
          rw [if_neg hk, alookup, if_neg hk]
          exact ih hp
  · rw [if_neg hp]
    induction l with
    | nil => simp [alookup]
    | cons p rest ih =>
        obtain ⟨pk2, pv⟩ := p
        by_cases hk : pk2 = k
        · rw [alookup, if_pos hk, Option.isSome_some] at hp
          exact absurd rfl hp
        · rw [alookup, if_neg hk] at hp
          simp only [List.cons_append]
          rw [alookup, if_neg hk]
          exact ih hp

/-- The create record carries the object's `localId`. -/
theorem packObject_localId (t : CodecTable) (o : BObj) :
    ((packObject t o).2).localId = o.magic.localId := by
  cases hpk : packObjectFields t (o.fields.filter fun fe => packNameOk fe.name) with
  | mk c1 r1 =>
      obtain ⟨o1, m1, p1⟩ := r1
      simp [packObject, hpk]

/-- C3.  For every bridgeable object and bridge state, `getPackedId`
returns `null` when the object is closed; returns `-remoteId` when the
object is a proxy the bridge holds; admits a never-seen object exactly
once — storing it in `objects`, storing its cache, appending exactly one
create record (carrying its `localId`) to the pending message, and
returning its `localId` — and returns the same `localId` without any
state change on every later call with the same object. -/
theorem claim_C3_getPackedId (s : BridgeStateM) (o : BObj) :
    (o.magic.closed = true → getPackedId s o = (Option.none, s)) ∧
    (∀ rid, o.magic.closed = false → o.magic.remoteId = some rid →
      (alookup s.proxies rid).isSome = true →
      getPackedId s o = (some (-rid), s)) ∧
    (o.magic.closed = false →
      (∀ rid, o.magic.remoteId = some rid → (alookup s.proxies rid).isSome = false) →
      alookup s.objects o.magic.localId = Option.none →
      getPackedId s o = (some o.magic.localId, admitState s o) ∧
      (admitState s o).message.created =
        s.message.created ++ [(packObject (tableOf (insertObjState s o)) o).2] ∧
      ((packObject (tableOf (insertObjState s o)) o).2).localId = o.magic.localId ∧
      getPackedId (admitState s o) o = (some o.magic.localId, admitState s o)) ∧
    (o.magic.closed = false →
      (∀ rid, o.magic.remoteId = some rid → (alookup s.proxies rid).isSome = false) →
      (alookup s.objects o.magic.localId).isSome = true →
      getPackedId s o = (some o.magic.localId, s)) := by
  refine ⟨?_, ?_, ?_, ?_⟩
  · intro hcl
    rw [getPackedId, if_pos hcl]
  · intro rid hcl hrid hp
    rw [getPackedId, if_neg (by simp [hcl]), hrid]
    simp only []
    rw [if_pos hp]
  · intro hcl hnp hno
    have howned : getPackedIdOwned s o = (some o.magic.localId, admitState s o) := by
      rw [getPackedIdOwned, if_neg (by simp [hno])]
    have hmain : getPackedId s o = (some o.magic.localId, admitState s o) := by
      rw [getPackedId, if_neg (by simp [hcl])]
      cases hrid : o.magic.remoteId with
      | none => exact howned
      | some rid =>
          simp only []
          rw [if_neg (by simp [hnp rid hrid])]
          exact howned
    refine ⟨hmain, rfl, packObject_localId _ o, ?_⟩
    have hsome : (alookup (admitState s o).objects o.magic.localId).isSome = true := by
      have hobj : (admitState s o).objects = ainsert s.objects o.magic.localId
          ({ o with bridges := o.bridges ++ [s.bridgeId] }) := rfl
      rw [hobj, alookup_ainsert]
      rfl
    have howned2 : getPackedIdOwned (admitState s o) o =
        (some o.magic.localId, admitState s o) := by
      rw [getPackedIdOwned, if_pos hsome]
    rw [getPackedId, if_neg (by simp [hcl])]
    cases hrid : o.magic.remoteId with
    | none => exact howned2
    | some rid =>
        simp only []
        have hpx : (alookup (admitState s o).proxies rid).isSome = false := hnp rid hrid
        rw [if_neg (by simp [hpx])]
        exact howned2
  · intro hcl hnp hyes
    have howned : getPackedIdOwned s o = (some o.magic.localId, s) := by
      rw [getPackedIdOwned, if_pos hyes]
    rw [getPackedId, if_neg (by simp [hcl])]
    cases hrid : o.magic.remoteId with
    | none => exact howned
    | some rid =>
        simp only []
        rw [if_neg (by simp [hnp rid hrid])]
        exact howned

/-- An empty bridge state. -/
def c3State : BridgeStateM := ⟨0, [], [], [], 0, [], [], emptyMessage, false⟩

/-- A fresh bridgeable object with one data property. -/
def c3Obj : BObj :=
  ⟨⟨5, false, Option.none, Option.none⟩, Option.none,
   [⟨"x", true, .fval (.vnum (.fin 1))⟩], [], []⟩

theorem claim_C3_getPackedId_witness :
    (getPackedId c3State c3Obj).1 = some 5 ∧
    (getPackedId c3State c3Obj).2.message.created.length = 1 ∧
    getPackedId (getPackedId c3State c3Obj).2 c3Obj =
      (some 5, (getPackedId c3State c3Obj).2) := by
  obtain ⟨hmain, hcreated, hlocal, hsecond⟩ :=
    (claim_C3_getPackedId c3State c3Obj).2.2.1 rfl
      (fun rid h => by simp [c3Obj] at h) rfl
  refine ⟨by rw [hmain]; rfl, ?_, ?_⟩
  · rw [hmain]
    rw [hcreated]
    simp [c3State, emptyMessage]
  · rw [hmain]
    exact hsecond

/-- C10.  For every object `o` owned by peer A under id `rid` and proxy
`p` for it held by peer B: packing `p` on B produces the packed id
`-rid`, and unpacking that envelope on A returns exactly the object A
owns under `rid` — the original object, not a new proxy. -/
theorem claim_C10_proxy_identity (A B : BridgeStateM) (rid : Int) (p o : BObj)
    (hclosed : p.magic.closed = false)
    (hrid : p.magic.remoteId = some rid)
    (hshare : p.magic.shareId = Option.none)
    (hB : alookup B.proxies rid = some p)
    (hpos : 0 < rid)
    (hA : alookup A.objects rid = some o) :
    packData (tableOf B) (objValue p) =
      ⟨some .obj, .vnum (.fin (-(rid : ℚ))), false⟩ ∧
    unpackData (tableOf A) ⟨some .obj, .vnum (.fin (-(rid : ℚ))), false⟩ "root" =
      .ok (objValue o) := by
  constructor
  · have hmap : mapData (objValue p) = .obj := by
      simp [mapData, objValue, hshare]
    rw [packData_notBlank _ _ (by rw [hmap]; simp), hmap]
    have hview : getPackedIdView B p.magic = some (-rid) := by
      rw [getPackedIdView, if_neg (by simp [hclosed]), hrid]
      simp [hB]
    simp [packItem, objValue, tableOf, hview]
  · rw [unpackData]
    simp only
    rw [unpackEnv_some]
    have hobj : (tableOf A).getObject (JsNumber.fin (-(rid : ℚ))).neg =
        some (objValue o) := by
      show stateGetObject A (JsNumber.neg (.fin (-(rid : ℚ)))) = _
      rw [JsNumber.neg]
      simp only [neg_neg]
      rw [stateGetObject]
      rw [if_pos (by simp)]
      rw [if_neg (by simp; omega)]
      simp [hA]
    simp [unpackItem, hobj]

/-- The object peer A owns under id 3. -/
def c10Owner : BObj := ⟨⟨3, false, Option.none, Option.none⟩, Option.none, [], [], []⟩

/-- Peer B's proxy for it. -/
def c10Proxy : BObj := ⟨⟨101, false, some 3, Option.none⟩, Option.none, [], [], []⟩

/-- Peer A's state: it owns the object. -/
def c10A : BridgeStateM := ⟨0, [], [(3, c10Owner)], [], 0, [], [], emptyMessage, false⟩

/-- Peer B's state: it holds the proxy. -/
def c10B : BridgeStateM := ⟨1, [(3, c10Proxy)], [], [], 0, [], [], emptyMessage, false⟩

theorem claim_C10_proxy_identity_witness :
    packData (tableOf c10B) (objValue c10Proxy) =
      ⟨some .obj, .vnum (.fin (-((3 : Int) : ℚ))), false⟩ ∧
    unpackData (tableOf c10A) ⟨some .obj, .vnum (.fin (-((3 : Int) : ℚ))), false⟩ "root" =
      .ok (objValue c10Owner) :=
  claim_C10_proxy_identity c10A c10B 3 c10Proxy c10Owner rfl rfl rfl
    (by simp [c10B, alookup]) (by norm_num) (by simp [c10A, alookup])

/-- Reading `o[n]`: the first slot of that name wins (shadowing along
the prototype chain); a missing name reads as `undefined`; a throwing
getter raises. -/
def findField : List FieldEntry → String → Option FieldVal
  | [], _ => Option.none
  | fe :: rest, n => if fe.name = n then some fe.val else findField rest n

/-- Property read `o[n]` on a bridgeable object. -/
def readProp (o : BObj) (n : String) : Except JsValue JsValue :=
  match findField o.fields n with
  | some (.fval v) => .ok v
  | Option.none => .ok .vundef
  | some (.fthrow e) => .error e

/-- `value !== cache[n]`: the dirty sentinel never compares equal to a
user value. -/
def cacheDiffers (c : CacheVal) (v : JsValue) : Bool :=
  match c with
  | .dirtySentinel => true
  | .cval w => ¬ v = w

/-- `diffObject` from `src/objects.js`: walk every cached name, re-read
the value, re-pack the changed ones and update the cache; a throwing
getter packs the error and stores the dirty sentinel but does not set
the dirty flag.  Returns (dirty, props, updated cache). -/
def diffObject (t : CodecTable) (o : BObj) :
    ValueCache → Bool × List (String × PackedData) × ValueCache
  | [] => (false, [], [])
  | (n, c) :: rest =>
      let r := diffObject t o rest
      match readProp o n with
      | .ok v =>
          if cacheDiffers c v then
            (true, (n, packData t v) :: r.2.1, (n, .cval v) :: r.2.2)
          else (r.1, r.2.1, (n, c) :: r.2.2)
      | .error e =>
          (r.1, (n, packThrow t e) :: r.2.1, (n, .dirtySentinel) :: r.2.2)

/-- The change-building loop of `sendNow`: diff every dirty entry,
keep the change records whose diff found something, and write the
mutated caches back (the dirty entry and the caches table share the
cache object). -/
def processDirty (t : CodecTable) (caches : List (Int × ValueCache)) :
    List (Int × DirtyEntry) → List ChangeMessage × List (Int × ValueCache)
  | [] => ([], caches)
  | (localId, de) :: rest =>
      let d := diffObject t de.object de.cache
      let r := processDirty t (amodify caches localId d.2.2) rest
      (if d.1 then ⟨localId, d.2.1⟩ :: r.1 else r.1, r.2)

/-- `BridgeState.sendNow` (current `state.js`): bail out when the bridge
is closed; build the change records; swap in a fresh dirty set and
message; and hand the outgoing message to `sendMessage` only when one of
the six sections is present.  The returned option is the `sendMessage`
call (or its absence). -/
def sendNow (s : BridgeStateM) : Option MessageM × BridgeStateM :=
  if s.closed then (Option.none, s)
  else
    let pd := processDirty (tableOf s) s.caches s.dirty
    let msg := { s.message with changed := s.message.changed ++ pd.1 }
    let s2 := { s with dirty := [], message := emptyMessage, caches := pd.2 }
    if msgNonempty msg then (some msg, s2) else (Option.none, s2)

/-- How a pending promise settles. -/
inductive Settlement where
  | resolved : JsValue → Settlement
  | rejectedWith : JsValue → Settlement
deriving DecidableEq

/-- How the returns loop settles one pending call: resolve with the
unpacked value, or reject when unpacking throws (which includes
envelopes marked `throw: true`). -/
def settlementOf (t : CodecTable) (pc : PendingCall) (ret : ReturnMessage) : Settlement :=
  match unpackData t ret.data (pc.name ++ ".return") with
  | .ok v => .resolved v
  | .error e => .rejectedWith e

/-- The returns section of `handleMessage` (current `state.js`): for
each return, an unknown callId raises `RangeError`; a known one is
settled and its entry deleted before the next return is processed.
Settlements are returned as a trace. -/
def handleReturns (s : BridgeStateM) :
    List ReturnMessage → Except JsValue (List (Nat × Settlement) × BridgeStateM)
  | [] => .ok ([], s)
  | ret :: rest =>
      match alookup s.pendingCalls ret.callId with
      | Option.none => .error (mkRangeError ("Invalid callId " ++ toString ret.callId))
      | some pc =>
          let st := settlementOf (tableOf s) pc ret
          match handleReturns
              { s with pendingCalls := aremove s.pendingCalls ret.callId } rest with
          | .ok (sts, s2) => .ok ((ret.callId, st) :: sts, s2)
          | .error e => .error e

/-- The closed section of `handleMessage` (current `state.js`, phase 3):
for each id, look up the proxy; when there is none the loop body executes
`return` — which exits `handleMessage` entirely — otherwise the proxy is
deleted and closed.  The trace lists the ids whose proxies were closed
(the `close(o)` call, which fires the proxy's local close event). -/
def handleClosed (s : BridgeStateM) : List Int → BridgeStateM × List Int
  | [] => (s, [])
  | localId :: rest =>
      match alookup s.proxies localId with
      | Option.none => (s, [])
      | some _ =>
          let r := handleClosed { s with proxies := aremove s.proxies localId } rest
          (r.1, localId :: r.2)

/-- Observable effects of the management layer: outgoing messages
enqueued on subscribed bridges, local callbacks running, `'error'`
re-emits, pending-call rejections, and object closures. -/
inductive Effect where
  | bridgeEvent : Nat → Int → String → JsValue → Effect
  | callbackRun : String → Effect
  | errorEmitted : JsValue → Effect
  | callRejected : Nat → JsValue → Effect
  | proxyClosed : Int → Effect
  | emitCloseFx : Nat → Int → Effect
deriving DecidableEq

/-- The listeners subscribed under a name. -/
def listenersOf (o : BObj) (name : String) : List Listener :=
  (alookup o.listeners name).getD []

/-- `callCallback` from the management layer (`src/magic.js`): run the
callback; a synchronous throw — or a then-able that rejects — feeds the
error handler only when `emitError` is set. -/
def callCallbackFx (onError : JsValue → List Effect) (emitError : Bool) (f : Listener) :
    List Effect :=
  match f with
  | .fine => []
  | .throws e => if emitError then onError e else []
  | .rejects e => if emitError then onError e else []

/-- The recursive `emit(o, 'error', e)` a failing callback triggers: the
event is enqueued on every subscribed bridge and the `'error'` listeners
run with `emitError = ('error' !== 'error') = false`, so their own
failures are swallowed — the recursion stops here. -/
def emitErrorPass (o : BObj) (e : JsValue) : List Effect :=
  Effect.errorEmitted e ::
    (o.bridges.map fun b => Effect.bridgeEvent b o.magic.localId "error" e) ++
    ((listenersOf o "error").map fun _ => Effect.callbackRun "error")

/-- `emit` from the management layer (`src/magic.js`): enqueue the event
on every subscribed bridge, then run the local listeners under
`callCallback` with `emitError = (name !== 'error')`. -/
def emit (o : BObj) (name : String) (payload : JsValue) : List Effect :=
  (o.bridges.map fun b => Effect.bridgeEvent b o.magic.localId name payload) ++
  (listenersOf o name).flatMap fun f =>
    Effect.callbackRun name :: callCallbackFx (emitErrorPass o) (¬ name = "error") f

/-- The `'close'` listeners fired at the start of the management-layer
`close` (current `manage.js`), with `emitError = true`. -/
def closeListenerFx (o : BObj) : List Effect :=
  (listenersOf o "close").flatMap fun f =>
    Effect.callbackRun "close" :: callCallbackFx (emitErrorPass o) true f

/-- `close` from the management layer (current `manage.js`): fire the
`'close'` listeners, mark the magic record closed, tell every subscribed
bridge to emit a close, and tear the subscriptions down (the watcher
table is part of the cleared subscriptions). -/
def manageClose (o : BObj) : BObj × List Effect :=
  let fx1 := closeListenerFx o
  let fx2 := o.bridges.map fun b => Effect.emitCloseFx b o.magic.localId
  ({ o with magic := { o.magic with closed := true }, listeners := [], bridges := [] },
   Effect.proxyClosed o.magic.localId :: fx1 ++ fx2)

/-- The proxy loop of `BridgeState.close`: `close` every proxy the
bridge holds (entries stay in the map; only their records change). -/
def closeAllProxies : List (Int × BObj) → List (Int × BObj) × List Effect
  | [] => ([], [])
  | (lid, p) :: rest =>
      let c := manageClose p
      let r := closeAllProxies rest
      ((lid, c.1) :: r.1, c.2 ++ r.2)

/-- `BridgeState.close(error)` (current `state.js`): reject every
pending call with the error, close every proxy, and set the closed
flag. -/
def stateClose (s : BridgeStateM) (err : JsValue) : BridgeStateM × List Effect :=
  let fx1 := s.pendingCalls.map fun p => Effect.callRejected p.1 err
  let pr := closeAllProxies s.proxies
  ({ s with proxies := pr.1, closed := true }, fx1 ++ pr.2)


/-- C4.  A flush whose diff produces no change records and whose pending
message has none of the six sections never invokes `sendMessage`, and
`sendMessage` is invoked only when the outgoing message has at least one
section. -/
theorem claim_C4_empty_no_send (s : BridgeStateM) :
    (∀ m s2, sendNow s = (some m, s2) → msgNonempty m = true) ∧
    (s.message = emptyMessage →
      (processDirty (tableOf s) s.caches s.dirty).1 = [] →
      (sendNow s).1 = Option.none) := by
  constructor
  · intro m s2 hsend
    rw [sendNow] at hsend
    by_cases hcl : s.closed = true
    · rw [if_pos hcl] at hsend
      simp at hsend
    · rw [if_neg hcl] at hsend
      simp only [] at hsend
      by_cases hne : msgNonempty
          { s.message with
            changed := s.message.changed ++ (processDirty (tableOf s) s.caches s.dirty).1 } = true
      · rw [if_pos hne] at hsend
        simp only [Prod.mk.injEq, Option.some.injEq] at hsend
        obtain ⟨hm, hs2⟩ := hsend
        rw [← hm]
        exact hne
      · rw [if_neg hne] at hsend
        simp at hsend
  · intro hmsg hdiff
    rw [sendNow]
    by_cases hcl : s.closed = true
    · rw [if_pos hcl]
    · rw [if_neg hcl]
      simp only []
      rw [if_neg ?hcond]
      case hcond =>
        rw [hmsg, hdiff]
        simp [msgNonempty, emptyMessage]

theorem claim_C4_empty_no_send_witness :
    (sendNow c3State).1 = Option.none :=
  (claim_C4_empty_no_send c3State).2 rfl rfl

/-- Looking up a deleted key fails. -/
theorem alookup_aremove_self {α β : Type} [DecidableEq α] (l : List (α × β)) (k : α) :
    alookup (aremove l k) k = Option.none := by
  induction l with
  | nil => rfl
  | cons p rest ih =>
      obtain ⟨pk2, pv⟩ := p
      rw [aremove]
      by_cases hk : pk2 = k
      · rw [if_pos hk]
        exact ih
      · rw [if_neg hk, alookup, if_neg hk]
        exact ih

/-- Deleting a key only removes entries. -/
theorem alookup_aremove_isSome {α β : Type} [DecidableEq α] (l : List (α × β)) (k c : α)
    (h : (alookup (aremove l k) c).isSome = true) : (alookup l c).isSome = true := by
  induction l with
  | nil => simp [aremove, alookup] at h
  | cons p rest ih =>
      obtain ⟨pk2, pv⟩ := p
      rw [aremove] at h
      by_cases hk : pk2 = k
      · rw [if_pos hk] at h
        rw [alookup]
        by_cases hc : pk2 = c
        · rw [if_pos hc]
          rfl
        · rw [if_neg hc]
          exact ih h
      · rw [if_neg hk] at h
        rw [alookup] at h ⊢
        by_cases hc : pk2 = c
        · rw [if_pos hc] at h ⊢
          exact h
        · rw [if_neg hc] at h ⊢
          exact ih h

/-- The cons equation of `alookup` for an undestructured pair. -/
theorem alookup_cons {α β : Type} [DecidableEq α] (p : α × β) (rest : List (α × β))
    (key : α) :
    alookup (p :: rest) key = if p.1 = key then some p.2 else alookup rest key := by
  obtain ⟨a, b⟩ := p
  rfl

/-- Any settlement trace of `handleReturns` settles distinct call ids,
each of them pending at the start: every processed id is deleted before
the remaining returns run, so a second return for the same id cannot
find a pending entry. -/
theorem handleReturns_nodup (s : BridgeStateM) (rets : List ReturnMessage)
    (sts : List (Nat × Settlement)) (s2 : BridgeStateM)
    (h : handleReturns s rets = .ok (sts, s2)) :
    (sts.map fun p => p.1).Nodup ∧
    ∀ cid, cid ∈ sts.map (fun p => p.1) →
      (alookup s.pendingCalls cid).isSome = true := by
  induction rets generalizing s sts s2 with
  | nil =>
      rw [handleReturns] at h
      simp only [Except.ok.injEq, Prod.mk.injEq] at h
      obtain ⟨h1, h2⟩ := h
      subst h1
      exact ⟨List.nodup_nil, fun cid hc => absurd hc (by simp)⟩
  | cons ret rest ih =>
      rw [handleReturns] at h
      split at h
      · exact absurd h (by simp)
      · rename_i pc hlk
        split at h
        · rename_i sts2 s22 hrec
          simp only [Except.ok.injEq, Prod.mk.injEq] at h
          obtain ⟨h1, h2⟩ := h
          subst h1
          obtain ⟨ihn, ihm⟩ := ih _ _ _ hrec
          have hproj : ({ s with pendingCalls := aremove s.pendingCalls ret.callId }
              : BridgeStateM).pendingCalls = aremove s.pendingCalls ret.callId := rfl
          constructor
          · simp only [List.map_cons]
            refine List.nodup_cons.mpr ⟨?_, ihn⟩
            intro hmem
            have hsome := ihm ret.callId hmem
            rw [hproj, alookup_aremove_self] at hsome
            simp at hsome
          · intro cid hc
            simp only [List.map_cons, List.mem_cons] at hc
            rcases hc with hc | hc
            · subst hc
              rw [hlk]
              rfl
            · have hsome := ihm cid hc
              rw [hproj] at hsome
              exact alookup_aremove_isSome _ _ _ hsome
        · exact absurd h (by simp)

/-- C6.  For every call id, at most one return is ever processed for
it: a return whose callId has a pending entry settles the call (resolves
with the unpacked value, or rejects when unpacking throws, which covers
both unpack failure and `throw: true`) and deletes the entry from
`pendingCalls`; a return whose callId has no pending entry raises
`RangeError`; and every settlement trace `handleReturns` ever produces
settles each call id at most once. -/
theorem claim_C6_returns (s : BridgeStateM) (ret : ReturnMessage) :
    (alookup s.pendingCalls ret.callId = Option.none →
      handleReturns s [ret] =
        .error (mkRangeError ("Invalid callId " ++ toString ret.callId))) ∧
    (∀ pc, alookup s.pendingCalls ret.callId = some pc →
      handleReturns s [ret] =
        .ok ([(ret.callId, settlementOf (tableOf s) pc ret)],
          { s with pendingCalls := aremove s.pendingCalls ret.callId })) ∧
    (∀ rets sts s2, handleReturns s rets = .ok (sts, s2) →
      (sts.map fun p => p.1).Nodup) := by
  refine ⟨?_, ?_, ?_⟩
  · intro hnone
    rw [handleReturns, hnone]
  · intro pc hpc
    rw [handleReturns, hpc, handleReturns]
  · intro rets sts s2 hh
    exact (handleReturns_nodup s rets sts s2 hh).1

/-- A state with one pending call, id 7. -/
def c6Pc : PendingCall := ⟨"fn"⟩

/-- A return message for call 7 carrying a plain number. -/
def c6Ret : ReturnMessage := ⟨7, ⟨Option.none, .vnum (.fin 3), false⟩⟩

/-- A bridge state holding the single pending call 7. -/
def c6State : BridgeStateM := ⟨0, [], [], [], 8, [(7, c6Pc)], [], emptyMessage, false⟩

theorem claim_C6_returns_witness :
    handleReturns c6State [c6Ret] =
      .ok ([(c6Ret.callId, settlementOf (tableOf c6State) c6Pc c6Ret)],
        { c6State with pendingCalls := aremove c6State.pendingCalls c6Ret.callId }) ∧
    handleReturns c3State [c6Ret] =
      .error (mkRangeError ("Invalid callId " ++ toString c6Ret.callId)) :=
  ⟨(claim_C6_returns c6State c6Ret).2.1 c6Pc rfl,
   (claim_C6_returns c3State c6Ret).1 rfl⟩

/-- C2.  Refuted as stated; the code diverges.  The `closed` loop of
`handleMessage` executes `return` — not `continue` — when an id has no
proxy, so the whole handler exits at the first unknown id: a later id
whose proxy is alive is never closed, even though running that id alone
would close it.  The claim says ids without a proxy are skipped without
affecting the remaining ids. -/
theorem claim_C2_closed_return_bug (s : BridgeStateM) (idA idB : Int)
    (hA : alookup s.proxies idA = Option.none)
    (hB : (alookup s.proxies idB).isSome = true) :
    handleClosed s [idA, idB] = (s, []) ∧
    (handleClosed s [idB]).2 = [idB] := by
  constructor
  · rw [handleClosed, hA]
  · obtain ⟨p, hp⟩ := Option.isSome_iff_exists.mp hB
    rw [handleClosed, hp, handleClosed]

/-- A live proxy under id 1. -/
def c2Proxy : BObj := ⟨⟨1, false, some 1, Option.none⟩, Option.none, [], [], []⟩

/-- A bridge state holding only proxy 1. -/
def c2State : BridgeStateM := ⟨0, [(1, c2Proxy)], [], [], 0, [], [], emptyMessage, false⟩

theorem claim_C2_closed_return_bug_witness :
    handleClosed c2State [2, 1] = (c2State, []) ∧
    (handleClosed c2State [1]).2 = [1] :=
  claim_C2_closed_return_bug c2State 2 1 rfl rfl

/-- With `emitError = false` a failing callback is swallowed. -/
theorem callCallbackFx_false (onError : JsValue → List Effect) (f : Listener) :
    callCallbackFx onError false f = [] := by
  cases f <;> rfl

/-- C8.  When a listener throws during dispatch of an event named `n`,
an `'error'` event is re-emitted on the same object if and only if `n`
is not itself `'error'`: dispatching an `'error'` event never triggers
a recursive `'error'` re-emit from a throwing listener. -/
theorem claim_C8_error_guard (o : BObj) (name : String) (payload : JsValue)
    (f : Listener) (e : JsValue)
    (hf : f ∈ listenersOf o name)
    (hthrow : f = .throws e ∨ f = .rejects e) :
    (∃ x, Effect.errorEmitted x ∈ emit o name payload) ↔ ¬ name = "error" := by
  constructor
  · rintro ⟨x, hx⟩ hname
    subst hname
    simp [emit, callCallbackFx_false] at hx
  · intro hname
    refine ⟨e, ?_⟩
    rw [emit]
    refine List.mem_append_right _ ?_
    refine List.mem_flatMap.mpr ⟨f, hf, ?_⟩
    have hd : (decide (¬ name = "error")) = true := decide_eq_true hname
    rcases hthrow with hf2 | hf2 <;> subst hf2 <;>
      simp [callCallbackFx, hd, emitErrorPass]

/-- An object with a throwing listener subscribed under `boom`. -/
def c8Obj : BObj :=
  ⟨⟨3, false, Option.none, Option.none⟩, Option.none, [],
   [("boom", [Listener.throws (.vstr "x")])], [1]⟩

theorem claim_C8_error_guard_witness :
    (∃ x, Effect.errorEmitted x ∈ emit c8Obj "boom" .vundef) ↔ ¬ "boom" = "error" :=
  claim_C8_error_guard c8Obj "boom" .vundef (.throws (.vstr "x")) (.vstr "x")
    (by simp [listenersOf, c8Obj, alookup]) (Or.inl rfl)

/-- Every proxy in the list is closed by `closeAllProxies`: its record
is replaced by the `manageClose` result and the close effect (the local
close event) is in the trace. -/
theorem closeAllProxies_mem (l : List (Int × BObj)) (lid : Int) (p : BObj)
    (h : (lid, p) ∈ l) :
    (lid, (manageClose p).1) ∈ (closeAllProxies l).1 ∧
    Effect.proxyClosed p.magic.localId ∈ (closeAllProxies l).2 := by
  induction l with
  | nil => cases h
  | cons q rest ih =>
      obtain ⟨ql, qp⟩ := q
      rw [List.mem_cons] at h
      rcases h with h | h
      · simp only [Prod.mk.injEq] at h
        obtain ⟨h1, h2⟩ := h
        subst h1
        subst h2
        constructor
        · simp only [closeAllProxies]
          exact List.mem_cons_self _ _
        · simp only [closeAllProxies]
          refine List.mem_append_left _ ?_
          simp only [manageClose]
          exact List.mem_cons_self _ _
      · obtain ⟨ih1, ih2⟩ := ih h
        constructor
        · simp only [closeAllProxies]
          exact List.mem_cons_of_mem _ ih1
        · simp only [closeAllProxies]
          exact List.mem_append_right _ ih2

/-- C5.  After `close(error)`: every pending call is rejected with that
error, every proxy the bridge holds is closed (its record marked closed
and its local close event fired), the closed flag is set, and a
subsequent `sendNow` produces no outbound message and leaves the state
unchanged. -/
theorem claim_C5_close (s : BridgeStateM) (err : JsValue) :
    (∀ cid pc, (cid, pc) ∈ s.pendingCalls →
      Effect.callRejected cid err ∈ (stateClose s err).2) ∧
    (∀ lid p, (lid, p) ∈ s.proxies →
      (lid, (manageClose p).1) ∈ (stateClose s err).1.proxies ∧
      (manageClose p).1.magic.closed = true ∧
      Effect.proxyClosed p.magic.localId ∈ (stateClose s err).2) ∧
    (stateClose s err).1.closed = true ∧
    sendNow (stateClose s err).1 = (Option.none, (stateClose s err).1) := by
  refine ⟨?_, ?_, rfl, ?_⟩
  · intro cid pc hm
    simp only [stateClose]
    exact List.mem_append_left _ (List.mem_map.mpr ⟨(cid, pc), hm, rfl⟩)
  · intro lid p hm
    obtain ⟨m1, m2⟩ := closeAllProxies_mem s.proxies lid p hm
    refine ⟨?_, rfl, ?_⟩
    · simp only [stateClose]
      exact m1
    · simp only [stateClose]
      exact List.mem_append_right _ m2
  · rfl

/-- A pending call for the close witness. -/
def c5Pc : PendingCall := ⟨"g"⟩

/-- A live proxy under id 4. -/
def c5Proxy : BObj := ⟨⟨4, false, some 4, Option.none⟩, Option.none, [], [], [0]⟩

/-- A bridge state holding proxy 4 and pending call 9. -/
def c5State : BridgeStateM :=
  ⟨0, [(4, c5Proxy)], [], [], 1, [(9, c5Pc)], [], emptyMessage, false⟩

theorem claim_C5_close_witness :
    Effect.callRejected 9 (.vstr "bye") ∈ (stateClose c5State (.vstr "bye")).2 ∧
    Effect.proxyClosed 4 ∈ (stateClose c5State (.vstr "bye")).2 ∧
    (stateClose c5State (.vstr "bye")).1.closed = true ∧
    sendNow (stateClose c5State (.vstr "bye")).1 =
      (Option.none, (stateClose c5State (.vstr "bye")).1) := by
  obtain ⟨h1, h2, h3, h4⟩ := claim_C5_close c5State (.vstr "bye")
  refine ⟨h1 9 c5Pc (by simp [c5State]), ?_, h3, h4⟩
  exact (h2 4 c5Proxy (by simp [c5State])).2.2

end Yaob
